import Mathlib

/-!
# Conduit telemetry pipeline of `console/cmd/khajunbgui/main.go`

A shallow embedding of the part of `main.go` that turns journal text into a
`ConduitStats` snapshot: `parseSizeToBytes`, `formatBytesPerSec`, the `parse`
closure and the selection / rate derivation of `readConduitStatsFromJournal`.

Go strings are modelled as `List Char` (the code points of a valid UTF-8
string).  `float64` is modelled exactly: a finite value is an integer multiple
of `2^-1074`, every arithmetic operation rounds the exact result to the nearest
representable value, ties to even.  The functions of the Go standard library
that the program calls (`strings`, `fmt.Sscanf`, `fmt.Sprintf`, `time.Parse`)
are modelled from their documented behaviour for the formats used here.
-/

namespace Khaju

/-! ## Package `strings` -/

/-- Go `unicode.IsSpace`: the code points with the White_Space property. -/
def isSpace (c : Char) : Bool :=
  let n := c.toNat
  (9 ≤ n && n ≤ 13) || n == 32 || n == 0x85 || n == 0xA0 || n == 0x1680 ||
  (0x2000 ≤ n && n ≤ 0x200A) || n == 0x2028 || n == 0x2029 || n == 0x202F ||
  n == 0x205F || n == 0x3000

/-- Drop the leading white space of a string. -/
def trimLeft (s : List Char) : List Char := s.dropWhile isSpace

/-- Drop the trailing white space of a string. -/
def trimRight (s : List Char) : List Char := (s.reverse.dropWhile isSpace).reverse

/-- Go `strings.TrimSpace`. -/
def trimSpace (s : List Char) : List Char := trimRight (trimLeft s)

/-- Worker of `fields`: `cur` is the field being read, reversed. -/
def fieldsAux : List Char → List Char → List (List Char)
  | [], cur => if cur.isEmpty then [] else [cur.reverse]
  | c :: cs, cur =>
    if isSpace c then
      if cur.isEmpty then fieldsAux cs [] else cur.reverse :: fieldsAux cs []
    else fieldsAux cs (c :: cur)

/-- Go `strings.Fields`: the maximal runs of non-space characters. -/
def fields (s : List Char) : List (List Char) := fieldsAux s []

/-- Go `strings.Split(s, sep)` for a separator of one character. -/
def splitOn (sep : Char) : List Char → List (List Char)
  | [] => [[]]
  | c :: cs =>
    if c = sep then [] :: splitOn sep cs
    else match splitOn sep cs with
      | [] => [[c]]
      | h :: t => (c :: h) :: t

/-- Go `strings.HasPrefix`. -/
def hasPrefix (s pre : List Char) : Bool := pre.isPrefixOf s

/-- Go `strings.TrimPrefix`. -/
def trimPrefix (s pre : List Char) : List Char :=
  if hasPrefix s pre then s.drop pre.length else s

/-- Go `strings.Index`: the position of the first occurrence of `sub` in the
string, `none` for Go's `-1`. -/
def index (sub : List Char) : List Char → Option Nat
  | [] => if sub.isEmpty then some 0 else none
  | c :: cs =>
    if sub.isPrefixOf (c :: cs) then some 0
    else (index sub cs).map (· + 1)

/-- Go `strings.Contains`. -/
def contains (s sub : List Char) : Bool := (index sub s).isSome

/-- Upper case of one character, for the ASCII letters. -/
def upperChar (c : Char) : Char :=
  if 'a' ≤ c ∧ c ≤ 'z' then Char.ofNat (c.toNat - 32) else c

/-- Go `strings.ToUpper`, on the ASCII letters.  The program only compares the
result with the ASCII unit names `B`, `KB`, `MB`, `GB`, `TB`; the non-ASCII
letters that Unicode maps to an ASCII capital (dotless i, long s) map to none of
the letters of these names, so the comparison is the same. -/
def toUpper (s : List Char) : List Char := s.map upperChar

/-! ## `float64`

A finite `float64` is an integer multiple of `2^-1074`, the smallest positive
subnormal; `F64.fin neg n` is the value `(-1)^neg * n * 2^-1074`.  The values a
`float64` can hold are the `n` below `2^53` and the `n = m * 2^j` with
`m < 2^53`, up to `(2^53 - 1) * 2^2045`. -/

/-- The number `1.0` in units of `2^-1074`. -/
@[irreducible] def one64 : Nat := 2 ^ 1074

/-- The first magnitude, in units of `2^-1074`, that no finite `float64`
reaches: `2^1024`. -/
@[irreducible] def overflow64 : Nat := 2 ^ 2098

/-- Values of type `float64`. -/
inductive F64 where
  | nan
  | inf (neg : Bool)
  | fin (neg : Bool) (n : Nat)
  deriving DecidableEq

/-- Worker of `bitLen`. -/
def bitLenAux : Nat → Nat → Nat
  | 0, _ => 0
  | fuel + 1, n => if n = 0 then 0 else bitLenAux fuel (n / 2) + 1

/-- The number of binary digits of `n`. -/
def bitLen (n : Nat) : Nat := bitLenAux n n

/-- The integer nearest to `p / q`, ties to the even one. -/
def rne (p q : Nat) : Nat :=
  let t := p / q
  let r := p % q
  if 2 * r < q then t
  else if q < 2 * r then t + 1
  else if t % 2 = 0 then t else t + 1

/-- The representable magnitude nearest to `p / q` (in units of `2^-1074`),
ties to even, with an unbounded exponent: 53 significant bits are kept. -/
def roundUnits (p q : Nat) : Nat :=
  let sh := bitLen (p / q) - 53
  rne p (q * 2 ^ sh) * 2 ^ sh

/-- The `float64` nearest to `(-1)^neg * p / q` units; a magnitude that rounds
to `2^1024` or more is an infinity. -/
def F64.round (neg : Bool) (p q : Nat) : F64 :=
  let n := roundUnits p q
  if overflow64 ≤ n then .inf neg else .fin neg n

namespace F64

/-- The constant `0`. -/
def zero : F64 := .fin false 0

/-- Conversion of an integer to `float64`. -/
def ofInt (i : Int) : F64 := F64.round (decide (i < 0)) (i.natAbs * one64) 1

/-- Conversion of a natural number constant to `float64`. -/
def ofNat (n : Nat) : F64 := ofInt n

/-- The signed number of units of a finite value. -/
def units (neg : Bool) (n : Nat) : Int := if neg then -(n : Int) else n

/-- The `<` of `float64`: false when an operand is NaN, and `-0 < +0` is false. -/
def lt : F64 → F64 → Bool
  | .nan, _ => false
  | _, .nan => false
  | .inf a, .inf b => a && !b
  | .inf a, .fin _ _ => a
  | .fin _ _, .inf b => !b
  | .fin a n, .fin b m => decide (units a n < units b m)

/-- The `<=` of `float64`. -/
def le : F64 → F64 → Bool
  | .nan, _ => false
  | _, .nan => false
  | .inf a, .inf b => a || !b
  | .inf a, .fin _ _ => a
  | .fin _ _, .inf b => !b
  | .fin a n, .fin b m => decide (units a n ≤ units b m)

/-- The `>=` of `float64`. -/
def ge (a b : F64) : Bool := le b a

/-- Unary minus. -/
def neg : F64 → F64
  | .nan => .nan
  | .inf a => .inf (!a)
  | .fin a n => .fin (!a) n

/-- Addition: the exact sum, rounded.  A zero sum is `+0` unless both operands
are `-0`. -/
def add : F64 → F64 → F64
  | .nan, _ => .nan
  | _, .nan => .nan
  | .inf a, .inf b => if a = b then .inf a else .nan
  | .inf a, .fin _ _ => .inf a
  | .fin _ _, .inf b => .inf b
  | .fin a n, .fin b m =>
    let s := units a n + units b m
    if s = 0 then .fin (a && b) 0
    else F64.round (decide (s < 0)) s.natAbs 1

/-- Subtraction `a - b`. -/
def sub (a b : F64) : F64 := add a (neg b)

/-- Multiplication: the exact product, rounded. -/
def mul : F64 → F64 → F64
  | .nan, _ => .nan
  | _, .nan => .nan
  | .inf a, .inf b => .inf (xor a b)
  | .inf a, .fin b m => if m = 0 then .nan else .inf (xor a b)
  | .fin a n, .inf b => if n = 0 then .nan else .inf (xor a b)
  | .fin a n, .fin b m => F64.round (xor a b) (n * m) one64

/-- Division: the exact quotient, rounded. -/
def div : F64 → F64 → F64
  | .nan, _ => .nan
  | _, .nan => .nan
  | .inf _, .inf _ => .nan
  | .inf a, .fin b _ => .inf (xor a b)
  | .fin a _, .inf b => .fin (xor a b) 0
  | .fin a n, .fin b m =>
    if m = 0 then (if n = 0 then .nan else .inf (xor a b))
    else F64.round (xor a b) (n * one64) m

end F64

/-! ## `strconv`: decimal digits, `%.Nf` and `ParseFloat` -/

/-- Whether the character is one of `0` to `9`. -/
def isDigit (c : Char) : Bool := '0' ≤ c && c ≤ '9'

/-- The value of a decimal digit. -/
def digitVal (c : Char) : Nat := c.toNat - 48

/-- The value of a string of decimal digits. -/
def decimalValue (ds : List Char) : Nat := ds.foldl (fun acc c => acc * 10 + digitVal c) 0

/-- The character of a decimal digit. -/
def digitChar (d : Nat) : Char := Char.ofNat (48 + d)

/-- Worker of `natDigits`. -/
def natDigitsAux : Nat → Nat → List Char → List Char
  | 0, _, acc => acc
  | fuel + 1, n, acc =>
    if n < 10 then digitChar n :: acc
    else natDigitsAux fuel (n / 10) (digitChar (n % 10) :: acc)

/-- The decimal digits of a natural number, without leading zeros. -/
def natDigits (n : Nat) : List Char := natDigitsAux (n + 1) n []

/-- The decimal digits of `n`, padded with zeros on the left to `width`. -/
def padDigits (width n : Nat) : List Char :=
  let ds := natDigits n
  List.replicate (width - ds.length) '0' ++ ds

/-- The verb `%.<prec>f` of `fmt.Sprintf` on a `float64`: the exact value
rounded to `prec` decimals, ties to even; the sign is printed for every value
whose sign bit is set, negative zero included. -/
def fmtFixed (prec : Nat) : F64 → List Char
  | .nan => "NaN".toList
  | .inf neg => if neg then "-Inf".toList else "+Inf".toList
  | .fin neg n =>
    let r := rne (n * 10 ^ prec) one64
    (if neg then ['-'] else []) ++ natDigits (r / 10 ^ prec) ++
      (if prec = 0 then [] else '.' :: padDigits prec (r % 10 ^ prec))

/-- The decimal exponent of a literal as `strconv` accumulates it: digits are
taken in while the value is below 10000. -/
def exponentValue (ds : List Char) : Nat :=
  ds.foldl (fun e c => if e < 10000 then e * 10 + digitVal c else e) 0

/-- The value of the decimal literal `mant * 10^(exp - fracLen)`, rounded to
`float64`; `none` when the magnitude overflows (`strconv.ErrRange`). -/
def decimalToF64 (neg : Bool) (mant : Nat) (fracLen : Nat) (expNeg : Bool) (exp : Nat) :
    Option F64 :=
  let dp : Int := (if expNeg then -(exp : Int) else exp) - fracLen
  let r := if 0 ≤ dp then F64.round neg (mant * 10 ^ dp.toNat * one64) 1
           else F64.round neg (mant * one64) (10 ^ (-dp).toNat)
  match r with
  | .fin s n => some (.fin s n)
  | _ => none

/-- Split an optional sign off the front of a string. -/
def takeSign : List Char → Bool × List Char
  | '+' :: t => (false, t)
  | '-' :: t => (true, t)
  | s => (false, s)

/-- The value of the hexadecimal literal `mant * 2^(exp - 4 * fracLen)`,
rounded to `float64`; `none` when the magnitude overflows. -/
def hexToF64 (neg : Bool) (mant : Nat) (fracLen : Nat) (expNeg : Bool) (exp : Nat) :
    Option F64 :=
  let bp : Int := (if expNeg then -(exp : Int) else exp) - 4 * fracLen
  let r := if 0 ≤ bp then F64.round neg (mant * 2 ^ bp.toNat * one64) 1
           else F64.round neg (mant * one64) (2 ^ (-bp).toNat)
  match r with
  | .fin s n => some (.fin s n)
  | _ => none

/-- Whether the character is one of the letters `a` to `f`, in either case. -/
def isHexLetter (c : Char) : Bool := ('a' ≤ c && c ≤ 'f') || ('A' ≤ c && c ≤ 'F')

/-- The value of a hexadecimal letter. -/
def hexLetterVal (c : Char) : Nat := c.toLower.toNat - 87

/-- What `readFloat` knows after the digits of the mantissa: whether it saw a
point, a digit, an underscore; the digits as a number; how many of them
followed the point. -/
structure Mantissa where
  sawdot : Bool
  sawdigits : Bool
  underscores : Bool
  value : Nat
  fracLen : Nat
  deriving DecidableEq

/-- The loop of `strconv.readFloat` over the mantissa: underscores are skipped,
one point is taken, digits (and the letters `a` to `f` of a hexadecimal
mantissa) are accumulated; the loop stops at any other character. -/
def readMantissa (hex : Bool) : List Char → Mantissa → Mantissa × List Char
  | [], st => (st, [])
  | c :: cs, st =>
    if c = '_' then readMantissa hex cs { st with underscores := true }
    else if c = '.' then
      if st.sawdot then (st, c :: cs)
      else readMantissa hex cs { st with sawdot := true }
    else if isDigit c then
      readMantissa hex cs
        { st with sawdigits := true,
                  value := st.value * (if hex then 16 else 10) + digitVal c,
                  fracLen := if st.sawdot then st.fracLen + 1 else st.fracLen }
    else if hex && isHexLetter c then
      readMantissa hex cs
        { st with sawdigits := true,
                  value := st.value * 16 + hexLetterVal c,
                  fracLen := if st.sawdot then st.fracLen + 1 else st.fracLen }
    else (st, c :: cs)

/-- The exponent of `strconv.readFloat`, read after the exponent character: an
optional sign, a digit, then digits and underscores.  The result is the sign,
the value, whether an underscore was seen, and the rest; `none` when no digit
follows. -/
def readExponent (r : List Char) : Option (Bool × Nat × Bool × List Char) :=
  let (eneg, r1) := takeSign r
  match r1 with
  | d :: _ =>
    if isDigit d then
      let ds := r1.takeWhile (fun c => isDigit c || c == '_')
      some (eneg, exponentValue (ds.filter (fun c => c != '_')), ds.contains '_',
        r1.dropWhile (fun c => isDigit c || c == '_'))
    else none
  | [] => none

/-- Worker of `underscoreOK`: `saw` is the kind of the last character, `0` for
a digit or base prefix, `_` for an underscore, `!` for anything else, `^` at
the start. -/
def underscoreOKAux (hex : Bool) : Char → List Char → Bool
  | saw, [] => saw != '_'
  | saw, c :: cs =>
    if isDigit c || (hex && isHexLetter c) then underscoreOKAux hex '0' cs
    else if c = '_' then
      if saw != '0' then false else underscoreOKAux hex '_' cs
    else if saw = '_' then false
    else underscoreOKAux hex '!' cs

/-- Go `strconv.underscoreOK`: underscores stand only between digits or between
a base prefix and a digit. -/
def underscoreOK (s : List Char) : Bool :=
  match (takeSign s).2 with
  | a :: b :: rest =>
    if a = '0' && (b.toLower = 'b' || b.toLower = 'o' || b.toLower = 'x') then
      underscoreOKAux (b.toLower = 'x') '0' rest
    else underscoreOKAux false '^' (a :: b :: rest)
  | body => underscoreOKAux false '^' body

/-- A literal as `strconv.readFloat` reads it: sign, whether the mantissa is
hexadecimal, the digits of the mantissa as a number, the number of digits after
the point, and the sign and value of the exponent. -/
structure FloatLiteral where
  neg : Bool
  hex : Bool
  mant : Nat
  fracLen : Nat
  expNeg : Bool
  exp : Nat
  deriving DecidableEq

/-- Go `strconv.readFloat` on a whole token, `none` for a syntax error: an
optional sign, a decimal mantissa with an optional exponent `e`, or a mantissa
with the prefix `0x` and a mandatory binary exponent `p`, with underscores as
digit separators. -/
def readFloat (tok : List Char) : Option FloatLiteral :=
  let (neg, body) := takeSign tok
  let hex := match body with
    | a :: b :: _ :: _ => a == '0' && b.toLower == 'x'
    | _ => false
  let (m, r1) := readMantissa hex (if hex then body.drop 2 else body)
    { sawdot := false, sawdigits := false, underscores := false, value := 0, fracLen := 0 }
  if !m.sawdigits then none
  else
    let ex : Option (Bool × Nat × Bool) :=
      match r1 with
      | [] => if hex then none else some (false, 0, false)
      | c :: t =>
        if c.toLower == (if hex then 'p' else 'e') then
          match readExponent t with
          | some (eneg, e, us, []) => some (eneg, e, us)
          | _ => none
        else none
    match ex with
    | none => none
    | some (eneg, e, us) =>
      if (m.underscores || us) && !underscoreOK tok then none
      else some { neg := neg, hex := hex, mant := m.value, fracLen := m.fracLen,
                  expNeg := eneg, exp := e }

/-- Go `strconv.ParseFloat(tok, 64)`, `none` for an error: the special values
(`nan`, `inf`, `infinity`, any case, the infinities with an optional sign), and
the literals of `readFloat`, rounded to the nearest `float64`; a magnitude that
overflows is an error. -/
def parseFloat (tok : List Char) : Option F64 :=
  if tok.map Char.toLower = "nan".toList then some .nan
  else if (takeSign tok).2.map Char.toLower = "inf".toList ∨
      (takeSign tok).2.map Char.toLower = "infinity".toList then some (.inf (takeSign tok).1)
  else
    match readFloat tok with
    | none => none
    | some l =>
      if l.hex then hexToF64 l.neg l.mant l.fracLen l.expNeg l.exp
      else decimalToF64 l.neg l.mant l.fracLen l.expNeg l.exp

/-- Go `strconv.Atoi`: an optional sign and digits, within the range of a
64-bit `int`; `none` for an error. -/
def atoi (s : List Char) : Option Int :=
  let (neg, ds) := takeSign s
  if ds.isEmpty || !ds.all isDigit then none
  else
    let v : Int := if neg then -(decimalValue ds : Int) else decimalValue ds
    if -(2 : Int) ^ 63 ≤ v ∧ v < (2 : Int) ^ 63 then some v else none

/-- Addition of two `int` values of 64 bits, wrapping around. -/
def wrapInt64 (x : Int) : Int := (x + 2 ^ 63) % 2 ^ 64 - 2 ^ 63

/-- Go `math.Ldexp(f, m)`: `f * 2^m`, rounded.  The exponent of the result is
computed in an `int`; below `-1075` the result is a zero, above `1023` an
infinity. -/
def ldexp (f : F64) (m : Int) : F64 :=
  match f with
  | .nan => .nan
  | .inf s => .inf s
  | .fin s n =>
    if n = 0 then .fin s 0
    else
      let e := wrapInt64 (m + ((bitLen n : Int) - 1075))
      if e < -1075 then .fin s 0
      else if 1023 < e then .inf s
      else if 0 ≤ m then F64.round s (n * 2 ^ m.toNat) 1
      else F64.round s n (2 ^ (-m).toNat)

/-- The conversion `convertFloat` of `fmt`: a token with a `p` and no `x` is a
decimal mantissa with a binary exponent, `ParseFloat` of the mantissa scaled by
`Ldexp`; any other token goes to `ParseFloat`.  `none` for an error. -/
def convertFloat (tok : List Char) : Option F64 :=
  if tok.contains 'p' && !(tok.contains 'x' || tok.contains 'X') then
    match parseFloat (tok.takeWhile (fun c => c != 'p')),
        atoi ((tok.dropWhile (fun c => c != 'p')).drop 1) with
    | some f, some m => some (ldexp f m)
    | _, _ => none
  else parseFloat tok

/-! ## `fmt.Sscanf` for the formats of the program -/

/-- Drop the leading spaces other than newline. -/
def skipBlanks (s : List Char) : List Char := s.dropWhile (fun c => isSpace c && c != '\n')

/-- A space in the format: the input must be at its end or continue with a
space that is not a newline; the run of spaces is consumed.  `none` is the
error "input does not match format". -/
def matchFormatSpace : List Char → Option (List Char)
  | [] => some []
  | c :: cs => if c != '\n' && isSpace c then some (skipBlanks (c :: cs)) else none

/-- The `SkipSpace` that every verb starts with: leading spaces are dropped, a
newline is an error. -/
def skipSpaceVerb (s : List Char) : Option (List Char) :=
  match skipBlanks s with
  | '\n' :: _ => none
  | r => some r

/-- The verb `%d` into an `int` (64 bits): an optional sign and at least one
digit; `none` for an error, a value out of range included. -/
def scanInt (s : List Char) : Option Int :=
  match skipSpaceVerb s with
  | none => none
  | some r =>
    let (neg, body) := takeSign r
    let ds := body.takeWhile isDigit
    if ds.isEmpty then none
    else
      let v : Int := if neg then -(decimalValue ds : Int) else decimalValue ds
      if -(2 : Int) ^ 63 ≤ v ∧ v < (2 : Int) ^ 63 then some v else none

/-- Go `fmt.Sscanf(p, label + " %d", &n)`: the value stored in `n`, `none` when
the scan fails before storing (the variable keeps its value). -/
def sscanfLabelInt (label p : List Char) : Option Int :=
  if label.isPrefixOf p then
    match matchFormatSpace (p.drop label.length) with
    | none => none
    | some r => scanInt r
  else none

/-- Scanner state of `floatToken`: the token read so far and the rest of the
input. -/
abbrev TokState := List Char × List Char

/-- Go `ss.accept`: consume the next character when it is in `set`. -/
def accept (set : List Char) : TokState → Bool × TokState
  | (buf, c :: cs) => if set.contains c then (true, (buf ++ [c], cs)) else (false, (buf, c :: cs))
  | (buf, []) => (false, (buf, []))

/-- The condition `accept(a) && accept(b) && ...`: accept in turn, stop at the
first failure; what was consumed stays consumed. -/
def acceptSeq : List (List Char) → TokState → Bool × TokState
  | [], st => (true, st)
  | set :: sets, st =>
    match accept set st with
    | (true, st1) => acceptSeq sets st1
    | (false, st1) => (false, st1)

/-- The loop `for accept(set) {}`. -/
def acceptMany (set : List Char) : TokState → TokState
  | (buf, inp) => (buf ++ inp.takeWhile set.contains, inp.dropWhile set.contains)

/-- Go `ss.floatToken`: the longest prefix of the input shaped like a number
(it is not checked to be one), and the rest. -/
def floatToken (inp : List Char) : TokState :=
  let decDigits := "0123456789_".toList
  match acceptSeq ["nN".toList, "aA".toList, "nN".toList] ([], inp) with
  | (true, st) => st
  | (false, st) =>
    let st := (accept "+-".toList st).2
    match acceptSeq ["iI".toList, "nN".toList, "fF".toList] st with
    | (true, st) => st
    | (false, st) =>
      let (hex, st) := acceptSeq ["0".toList, "xX".toList] st
      let digits := if hex then "0123456789aAbBcCdDeEfF_".toList else decDigits
      let exp := if hex then "pP".toList else "eEpP".toList
      let st := acceptMany digits st
      let st := match accept ".".toList st with
        | (true, st1) => acceptMany digits st1
        | (false, st1) => st1
      match accept exp st with
      | (true, st1) => acceptMany decDigits (accept "+-".toList st1).2
      | (false, st1) => st1

/-- The verb `%f` into a `float64`: the value and the rest of the input,
`none` for an error (nothing is stored). -/
def scanFloat (s : List Char) : Option (F64 × List Char) :=
  match skipSpaceVerb s with
  | none => none
  | some r =>
    if r.isEmpty then none
    else (convertFloat (floatToken r).1).map (fun v => (v, (floatToken r).2))

/-- The verb `%s`: the next word, up to the next space; `none` for an error,
the end of the input included. -/
def scanWord (s : List Char) : Option (List Char) :=
  match skipSpaceVerb s with
  | none => none
  | some r => if r.isEmpty then none else some (r.takeWhile (fun c => !isSpace c))

/-- Go `fmt.Sscanf(s, "%f %s", &v, &unit)`: the values stored in `v` and in
`unit`, each `none` when the scan stops before storing it. -/
def sscanfFloatWord (s : List Char) : Option F64 × Option (List Char) :=
  match scanFloat s with
  | none => (none, none)
  | some (v, rest) => (some v, (matchFormatSpace rest).bind scanWord)

/-! ## Package `time` -/

/-- Nanoseconds in a second. -/
def nsPerSec : Nat := 1000000000

/-- Whether the year is a leap year of the proleptic Gregorian calendar. -/
def isLeap (y : Nat) : Bool := y % 4 == 0 && (y % 100 != 0 || y % 400 == 0)

/-- Days in the month of the year. -/
def daysIn (m y : Nat) : Nat :=
  if m = 2 then (if isLeap y then 29 else 28)
  else if m = 4 ∨ m = 6 ∨ m = 9 ∨ m = 11 then 30 else 31

/-- Days from 1 January of year 0 to 1 January of year `y`. -/
def daysBeforeYear (y : Nat) : Nat := 365 * y + (y + 3) / 4 - (y + 99) / 100 + (y + 399) / 400

/-- Days from 1 January to the first of month `m` (1 to 12). -/
def daysBeforeMonth (m y : Nat) : Nat :=
  ((List.range (m - 1)).map (fun i => daysIn (i + 1) y)).sum

/-- An instant (UTC), in nanoseconds since 1 January of year 0, 00:00:00. -/
abbrev Time := Nat

/-- Go `time.Date(y, m, d, hh, mm, ss, ns, time.UTC)` for a valid date. -/
def date (y m d hh mm ss ns : Nat) : Time :=
  (((daysBeforeYear y + daysBeforeMonth m y + (d - 1)) * 24 + hh) * 60 + mm) * 60 * nsPerSec
    + ss * nsPerSec + ns

/-- The zero value of `time.Time`: 1 January of year 1, 00:00:00 UTC. -/
def zeroTime : Time := date 1 1 1 0 0 0 0

/-- Go `getnum`: one or two digits (two when `fixed`) and the rest. -/
def getnum (fixed : Bool) : List Char → Option (Nat × List Char)
  | a :: b :: t =>
    if isDigit a then
      if isDigit b then some (digitVal a * 10 + digitVal b, t)
      else if fixed then none else some (digitVal a, b :: t)
    else none
  | [a] => if isDigit a && !fixed then some (digitVal a, []) else none
  | [] => none

/-- Consume one given character. -/
def skipChar (c : Char) : List Char → Option (List Char)
  | d :: t => if d = c then some t else none
  | [] => none

/-- The fraction of a second that may follow the seconds although the layout
has none: a period or comma and digits; the first nine digits count. -/
def fracSeconds : List Char → Nat × List Char
  | c :: d :: t =>
    if (c = '.' ∨ c = ',') ∧ isDigit d then
      let ds := (d :: t).takeWhile isDigit
      let used := ds.take 9
      (decimalValue used * 10 ^ (9 - used.length), (d :: t).dropWhile isDigit)
    else (0, c :: d :: t)
  | s => (0, s)

/-- Go `time.Parse("2006-01-02 15:04:05", value)`, `none` for an error. -/
def timeParse (value : List Char) : Option Time := do
  let ys := value.take 4
  if ys.length < 4 ∨ !ys.all isDigit then none
  let y := decimalValue ys
  let v ← skipChar '-' (value.drop 4)
  let (m, v) ← getnum true v
  if m = 0 ∨ 12 < m then none
  let v ← skipChar '-' v
  let (d, v) ← getnum true v
  let v ← skipChar ' ' v
  let (hh, v) ← getnum false (v.dropWhile (· = ' '))
  if 24 ≤ hh then none
  let v ← skipChar ':' v
  let (mm, v) ← getnum true v
  if 60 ≤ mm then none
  let v ← skipChar ':' v
  let (ss, v) ← getnum true v
  if 60 ≤ ss then none
  let (ns, v) := fracSeconds v
  if !v.isEmpty then none
  if d < 1 ∨ daysIn m y < d then none
  pure (date y m d hh mm ss ns)

/-- Go `t.Sub(u)`: the difference in nanoseconds as a `Duration` (`int64`),
saturated at the largest and smallest `Duration`. -/
def timeSub (t u : Time) : Int :=
  let d : Int := (t : Int) - (u : Int)
  if d < -(2 : Int) ^ 63 then -(2 : Int) ^ 63
  else if (2 : Int) ^ 63 - 1 < d then (2 : Int) ^ 63 - 1
  else d

/-- Go `Duration.Seconds`: `float64(sec) + float64(nsec)/1e9` with `sec` and
`nsec` the truncated quotient and remainder by a second. -/
def durationSeconds (d : Int) : F64 :=
  F64.add (F64.ofInt (Int.tdiv d nsPerSec)) (F64.div (F64.ofInt (Int.tmod d nsPerSec)) (F64.ofNat nsPerSec))

/-! ## The program -/

/-- The struct `ConduitStats`. -/
structure ConduitStats where
  Connecting : Int
  Connected : Int
  UpTotal : List Char
  DownTotal : List Char
  UpBps : List Char
  DownBps : List Char
  deriving DecidableEq

/-- The function `parseSizeToBytes`. -/
def parseSizeToBytes (s : List Char) : F64 :=
  let s := trimSpace s
  let r := sscanfFloatWord s
  let v := r.1.getD F64.zero
  let unit := toUpper (trimSpace (r.2.getD []))
  if unit = "B".toList then v
  else if unit = "KB".toList then F64.mul v (F64.ofNat 1024)
  else if unit = "MB".toList then F64.mul (F64.mul v (F64.ofNat 1024)) (F64.ofNat 1024)
  else if unit = "GB".toList then
    F64.mul (F64.mul (F64.mul v (F64.ofNat 1024)) (F64.ofNat 1024)) (F64.ofNat 1024)
  else if unit = "TB".toList then
    F64.mul (F64.mul (F64.mul (F64.mul v (F64.ofNat 1024)) (F64.ofNat 1024)) (F64.ofNat 1024))
      (F64.ofNat 1024)
  else v

/-- The constant `KB` of `formatBytesPerSec`. -/
def KB : Nat := 1024

/-- The constant `MB` of `formatBytesPerSec`. -/
def MB : Nat := 1024 * KB

/-- The constant `GB` of `formatBytesPerSec`. -/
def GB : Nat := 1024 * MB

/-- The function `formatBytesPerSec`. -/
def formatBytesPerSec (bps : F64) : List Char :=
  let bps := if F64.lt bps F64.zero then F64.zero else bps
  if F64.ge bps (F64.ofNat GB) then fmtFixed 2 (F64.div bps (F64.ofNat GB)) ++ " GB/s".toList
  else if F64.ge bps (F64.ofNat MB) then fmtFixed 2 (F64.div bps (F64.ofNat MB)) ++ " MB/s".toList
  else if F64.ge bps (F64.ofNat KB) then fmtFixed 1 (F64.div bps (F64.ofNat KB)) ++ " KB/s".toList
  else fmtFixed 0 bps ++ " B/s".toList

/-- The marker of a statistics line. -/
def marker : List Char := "[STATS]".toList

/-- The results of the closure `parse`. -/
structure Sample where
  ts : Time
  connecting : Int
  connected : Int
  upStr : List Char
  downStr : List Char
  upBytes : F64
  downBytes : F64
  deriving DecidableEq

/-- The `switch` of the loop in `parse`, on the trimmed part `p`: the case
whose label is a prefix of `p` sets its results. -/
def parseSwitch (acc : Sample) (p : List Char) : Sample :=
  if hasPrefix p "Connecting:".toList then
    { acc with connecting := (sscanfLabelInt "Connecting:".toList p).getD acc.connecting }
  else if hasPrefix p "Connected:".toList then
    { acc with connected := (sscanfLabelInt "Connected:".toList p).getD acc.connected }
  else if hasPrefix p "Up:".toList then
    let upStr := trimSpace (trimPrefix p "Up:".toList)
    { acc with upStr := upStr, upBytes := parseSizeToBytes upStr }
  else if hasPrefix p "Down:".toList then
    let downStr := trimSpace (trimPrefix p "Down:".toList)
    { acc with downStr := downStr, downBytes := parseSizeToBytes downStr }
  else acc

/-- One turn of the loop over `parts` in `parse`: the part is trimmed, then
the `switch` runs. -/
def parseField (acc : Sample) (part : List Char) : Sample := parseSwitch acc (trimSpace part)

/-- The timestamp that `parse` reads from the first two fields of the line; the
zero time when there are fewer than two fields or they do not parse. -/
def parseTimestamp (line : List Char) : Time :=
  match fields line with
  | f0 :: f1 :: _ => (timeParse (f0 ++ ' ' :: f1)).getD zeroTime
  | _ => zeroTime

/-- The text that `parse` splits into parts: what follows the first marker,
trimmed; the whole line when it has no marker. -/
def afterMarker (line : List Char) : List Char :=
  match index marker line with
  | some idx => trimSpace (line.drop (idx + marker.length))
  | none => line

/-- The closure `parse` of `readConduitStatsFromJournal`. -/
def parse (line : List Char) : Sample :=
  (splitOn '|' (afterMarker line)).foldl parseField
    { ts := parseTimestamp line, connecting := 0, connected := 0, upStr := [], downStr := [],
      upBytes := F64.zero, downBytes := F64.zero }

/-- The loop that collects the last two marker lines: `rev` holds the lines
still to visit, last line first; `acc` is `statsLines`. -/
def collectStatsLines : List (List Char) → List (List Char) → List (List Char)
  | [], acc => acc
  | l :: rest, acc =>
    if acc.length < 2 then
      if contains l marker then collectStatsLines rest (acc ++ [l])
      else collectStatsLines rest acc
    else acc

/-- The swap `if len(statsLines) == 2 { statsLines[0], statsLines[1] = ... }`. -/
def swapIfTwo : List (List Char) → List (List Char)
  | [a, b] => [b, a]
  | l => l

/-- The slice `statsLines` after the loop and the swap: the selected lines,
older first. -/
def selectStatsLines (lines : List (List Char)) : List (List Char) :=
  swapIfTwo (collectStatsLines lines.reverse [])

/-- The seconds between two samples as the program uses them: the difference of
the timestamps, replaced by `1` when it is not positive. -/
def elapsed (ts1 ts2 : Time) : F64 :=
  let dt := durationSeconds (timeSub ts2 ts1)
  if F64.le dt F64.zero then F64.ofNat 1 else dt

/-- The body of `readConduitStatsFromJournal` from the lines of the journal
output on. -/
def statsFromLines (lines : List (List Char)) : ConduitStats :=
  match selectStatsLines lines with
  | [] => { Connecting := 0, Connected := 0, UpTotal := "-".toList, DownTotal := "-".toList,
            UpBps := "-".toList, DownBps := "-".toList }
  | [l] =>
    let s := parse l
    { Connecting := s.connecting, Connected := s.connected, UpTotal := s.upStr,
      DownTotal := s.downStr, UpBps := "-".toList, DownBps := "-".toList }
  | l1 :: l2 :: _ =>
    let s1 := parse l1
    let s2 := parse l2
    let dt := elapsed s1.ts s2.ts
    { Connecting := s2.connecting, Connected := s2.connected, UpTotal := s2.upStr,
      DownTotal := s2.downStr,
      UpBps := formatBytesPerSec (F64.div (F64.sub s2.upBytes s1.upBytes) dt),
      DownBps := formatBytesPerSec (F64.div (F64.sub s2.downBytes s1.downBytes) dt) }

/-- The function `readConduitStatsFromJournal`, from the text `out` that the
`journalctl` command returned. -/
def readConduitStatsFromJournal (out : List Char) : ConduitStats :=
  statsFromLines (splitOn '\n' out)

/-! ## Vocabulary of the specification -/

/-- Whether a line is recognised as a sample: it contains the marker. -/
def isStatsLine (l : List Char) : Bool := contains l marker

/-- The snapshot of the "zero samples" case: zero counts and `-` in the four
display fields. -/
def noStats : ConduitStats :=
  { Connecting := 0, Connected := 0, UpTotal := "-".toList, DownTotal := "-".toList,
    UpBps := "-".toList, DownBps := "-".toList }

/-- The first step of `formatBytesPerSec` in the words of the specification,
"negative input is clamped to zero before formatting": a rate below zero
becomes `0`, any other rate is kept. -/
def clampRate (x : F64) : F64 := if F64.lt x F64.zero then F64.zero else x

/-- The `max(0, x)` of the rate formula: the larger of `0` and `x`.  It is `+0`
for both zeros; NaN, which is not ordered, stays NaN. -/
def max0 (x : F64) : F64 :=
  match x with
  | .nan => .nan
  | y => if F64.lt F64.zero y then y else F64.zero

/-- The `dt` of the rate formula as the specification words it: the newer
timestamp minus the older one, in seconds, when that difference is strictly
positive, and `1` otherwise. -/
def claimDt (older newer : Time) : F64 :=
  if older < newer then durationSeconds ((newer : Int) - (older : Int)) else F64.ofNat 1

/-- The largest `time.Duration`, in nanoseconds: about 292 years. -/
def maxDuration : Int := 2 ^ 63 - 1

/-- The `dt` of the rate formula with the difference of the timestamps limited
to the largest `time.Duration`. -/
def boundedDt (older newer : Time) : F64 :=
  if older < newer then durationSeconds (min ((newer : Int) - (older : Int)) maxDuration)
  else F64.ofNat 1

/-- Whether some leading part of the string is a number, as
`strconv.ParseFloat` reads numbers. -/
def startsWithNumber (s : List Char) : Bool := s.inits.any (fun tok => (parseFloat tok).isSome)

/-- What may follow a number in a string: the end of the string, or a space. -/
def endOfNumber : List Char → Bool
  | [] => true
  | c :: _ => isSpace c

/-- A marker line whose first two fields are not a timestamp. -/
def unstampedOlder : List Char :=
  "conduit[812]: [STATS] Connecting: 2 | Connected: 15 | Up: 0 B | Down: 0 B".toList

/-- A marker line with a timestamp and totals of 100 GB. -/
def stampedNewer : List Char :=
  "2026-01-31 05:33:39 [STATS] Connecting: 4 | Connected: 19 | Up: 100 GB | Down: 100 GB".toList

/-- A batch whose older sample has no timestamp. -/
def unstampedBatch : List (List Char) := [unstampedOlder, stampedNewer]

/-- The older sample line of the example of the specification. -/
def exampleOlder : List Char :=
  ("2026-01-31 05:33:09 [STATS] Connecting: 2 | Connected: 15 | Up: 900.0 MB | " ++
    "Down: 8.0 GB | Uptime: 3h").toList

/-- The newer sample line of the example of the specification. -/
def exampleNewer : List Char :=
  ("2026-01-31 05:33:39 [STATS] Connecting: 4 | Connected: 19 | Up: 950.0 MB | " ++
    "Down: 8.7 GB | Uptime: 3h").toList

/-- The example batch of the specification: two samples thirty seconds apart. -/
def exampleBatch : List (List Char) := [exampleOlder, exampleNewer]

/-- The older line of a counter reset: both totals are the smallest positive
`float64`. -/
def resetOlder : List Char :=
  "2026-01-31 05:33:09 [STATS] Connecting: 2 | Connected: 15 | Up: 5e-324 B | Down: 5e-324 B".toList

/-- The newer line of a counter reset, thirty seconds later: both totals are
zero. -/
def resetNewer : List Char :=
  "2026-01-31 05:33:39 [STATS] Connecting: 4 | Connected: 19 | Up: 0 B | Down: 0 B".toList

/-- A batch with a counter reset between its two samples. -/
def resetBatch : List (List Char) := [resetOlder, resetNewer]

/-- The newer example line with its fields in another order and without the
`Uptime` field. -/
def exampleShuffled : List Char :=
  "2026-01-31 05:33:39 [STATS] Down: 8.7 GB | Up: 950.0 MB | Connected: 19 | Connecting: 4".toList

/-- A statistics line whose upload total is not a size. -/
def malformedLine : List Char := "2026-01-31 05:33:39 [STATS] Up: xyz | Uptime: 3h".toList

/-- The attributes that a field of a statistics line can set. -/
inductive Label where
  | connecting
  | connected
  | up
  | down
  deriving DecidableEq

/-- The label of a trimmed field: the case of the `switch` that it selects. -/
def labelOf (p : List Char) : Option Label :=
  if hasPrefix p "Connecting:".toList then some .connecting
  else if hasPrefix p "Connected:".toList then some .connected
  else if hasPrefix p "Up:".toList then some .up
  else if hasPrefix p "Down:".toList then some .down
  else none

/-- The fields of a line: the parts between the pipes of the text after the
marker, trimmed. -/
def fieldsOf (line : List Char) : List (List Char) :=
  (splitOn '|' (afterMarker line)).map trimSpace

/-- The fields of a line that carry one of the four labels. -/
def labelledFields (line : List Char) : List (List Char) :=
  (fieldsOf line).filter (fun p => (labelOf p).isSome)

/-- How many fields of the line carry the label. -/
def labelCount (lab : Label) (line : List Char) : Nat :=
  ((fieldsOf line).filter (fun p => labelOf p = some lab)).length

/-- The parsed sample without its timestamp: counts, total strings, byte
totals. -/
def Sample.core (s : Sample) : Int × Int × List Char × List Char × F64 × F64 :=
  (s.connecting, s.connected, s.upStr, s.downStr, s.upBytes, s.downBytes)

/-- The decimal digits. -/
def decimalDigits : List Char := "0123456789".toList

/-- The power of 1024 that a unit name stands for. -/
def unitPower (name : List Char) : Option Nat :=
  if name = "B".toList then some 0
  else if name = "KB".toList then some 1
  else if name = "MB".toList then some 2
  else if name = "GB".toList then some 3
  else if name = "TB".toList then some 4
  else none

/-- A magnitude that a `float64` can hold: at most 53 significant bits. -/
def Representable (n : Nat) : Prop := ∃ m j, n = m * 2 ^ j ∧ m < 2 ^ 53

/-- A value of type `float64`: a finite value has a representable magnitude
below `2^1024`. -/
def F64.Valid : F64 → Prop
  | .fin _ n => Representable n ∧ n < overflow64
  | _ => True

/-- The product of a `float64` and a natural number, computed exactly: a
finite product that reaches `2^1024` is an infinity. -/
def F64.mulExact (v : F64) (c : Nat) : F64 :=
  match v with
  | .nan => .nan
  | .inf s => .inf s
  | .fin s n => if overflow64 ≤ n * c then .inf s else .fin s (n * c)

set_option maxRecDepth 100000

/-! ## Rounding -/

theorem bitLenAux_spec (fuel n : Nat) (h : n ≤ fuel) :
    n < 2 ^ bitLenAux fuel n ∧ (n ≠ 0 → 2 ^ (bitLenAux fuel n - 1) ≤ n) := by
  induction fuel generalizing n with
  | zero =>
    have : n = 0 := by omega
    subst this
    simp [bitLenAux]
  | succ fuel ih =>
    unfold bitLenAux
    by_cases hn : n = 0
    · subst hn; simp
    · rw [if_neg hn]
      obtain ⟨h1, h2⟩ := ih (n / 2) (by omega)
      constructor
      · rw [pow_succ]; omega
      · intro _
        simp only [Nat.add_sub_cancel]
        by_cases h0 : n / 2 = 0
        · have : 1 ≤ 2 ^ bitLenAux fuel (n / 2) := Nat.one_le_two_pow
          have hb : bitLenAux fuel (n / 2) = 0 := by
            rw [h0]; cases fuel <;> simp [bitLenAux]
          rw [hb]; simp; omega
        · have h3 := h2 h0
          have hb : bitLenAux fuel (n / 2) ≠ 0 := by
            intro hb
            rw [hb] at h1
            simp at h1
            exact h0 h1
          obtain ⟨b, hb'⟩ := Nat.exists_eq_succ_of_ne_zero hb
          rw [hb'] at h3 ⊢
          simp only [Nat.succ_sub_one] at h3
          rw [pow_succ]; omega

theorem lt_two_pow_bitLen (n : Nat) : n < 2 ^ bitLen n := (bitLenAux_spec n n le_rfl).1

theorem two_pow_bitLen_le (n : Nat) (h : n ≠ 0) : 2 ^ (bitLen n - 1) ≤ n :=
  (bitLenAux_spec n n le_rfl).2 h

theorem rne_ge (p q : Nat) : p / q ≤ rne p q := by
  unfold rne; dsimp only; split_ifs <;> omega

theorem rne_le (p q : Nat) : rne p q ≤ p / q + 1 := by
  unfold rne; dsimp only; split_ifs <;> omega

theorem rne_exact (x q : Nat) (hq : 0 < q) : rne (x * q) q = x := by
  unfold rne
  simp [Nat.mul_div_cancel _ hq, hq]

/-- Rounding never crosses a power of two downwards. -/
theorem le_roundUnits (p q k : Nat) (hq : 0 < q) (h : 2 ^ k * q ≤ p) :
    2 ^ k ≤ roundUnits p q := by
  unfold roundUnits
  dsimp only
  have ht : 2 ^ k ≤ p / q := (Nat.le_div_iff_mul_le hq).2 h
  generalize hsh : bitLen (p / q) - 53 = sh
  have hm := rne_ge p (q * 2 ^ sh)
  rw [← Nat.div_div_eq_div_mul] at hm
  have hpos : 0 < 2 ^ sh := Nat.two_pow_pos sh
  by_cases hk : sh ≤ k
  · obtain ⟨d, rfl⟩ := Nat.exists_eq_add_of_le hk
    have : 2 ^ d ≤ p / q / 2 ^ sh := by
      rw [Nat.le_div_iff_mul_le hpos, ← pow_add, Nat.add_comm]; exact ht
    calc 2 ^ (sh + d) = 2 ^ d * 2 ^ sh := by rw [pow_add, Nat.mul_comm]
      _ ≤ rne p (q * 2 ^ sh) * 2 ^ sh := Nat.mul_le_mul_right _ (le_trans this hm)
  · have hne : p / q ≠ 0 := by
      have : 0 < 2 ^ k := Nat.two_pow_pos k
      omega
    have hlow := two_pow_bitLen_le (p / q) hne
    have h1 : 2 ^ sh ≤ p / q := le_trans (Nat.pow_le_pow_right (by norm_num) (by omega)) hlow
    have h2 : 1 ≤ p / q / 2 ^ sh := by
      rw [Nat.le_div_iff_mul_le hpos]; simpa using h1
    calc 2 ^ k ≤ 2 ^ sh := Nat.pow_le_pow_right (by norm_num) (by omega)
      _ = 1 * 2 ^ sh := by simp
      _ ≤ rne p (q * 2 ^ sh) * 2 ^ sh := Nat.mul_le_mul_right _ (le_trans h2 hm)

/-- Rounding never crosses a power of two upwards. -/
theorem roundUnits_le (p q k : Nat) (hq : 0 < q) (h : p < 2 ^ k * q) :
    roundUnits p q ≤ 2 ^ k := by
  unfold roundUnits
  dsimp only
  have ht : p / q < 2 ^ k := (Nat.div_lt_iff_lt_mul hq).2 h
  generalize hsh : bitLen (p / q) - 53 = sh
  have hm := rne_le p (q * 2 ^ sh)
  rw [← Nat.div_div_eq_div_mul] at hm
  have hpos : 0 < 2 ^ sh := Nat.two_pow_pos sh
  by_cases hk : sh ≤ k
  · obtain ⟨d, rfl⟩ := Nat.exists_eq_add_of_le hk
    have : p / q / 2 ^ sh < 2 ^ d := by
      rw [Nat.div_lt_iff_lt_mul hpos, ← pow_add, Nat.add_comm]; exact ht
    calc rne p (q * 2 ^ sh) * 2 ^ sh ≤ 2 ^ d * 2 ^ sh := Nat.mul_le_mul_right _ (by omega)
      _ = 2 ^ (sh + d) := by rw [pow_add, Nat.mul_comm]
  · exfalso
    have hne : p / q ≠ 0 := by
      intro h0
      rw [h0] at hsh
      have : bitLen 0 = 0 := by decide
      omega
    have hlow := two_pow_bitLen_le (p / q) hne
    have h1 : 2 ^ k ≤ 2 ^ (bitLen (p / q) - 1) := Nat.pow_le_pow_right (by norm_num) (by omega)
    omega

/-! ## Finite results -/

theorem one64_eq : one64 = 2 ^ 1074 := by rw [one64]

theorem overflow64_eq : overflow64 = 2 ^ 2098 := by rw [overflow64]

theorem one64_pos : 0 < one64 := by rw [one64_eq]; positivity

theorem two_pow_lt (k e : Nat) (h : k < e) : 2 ^ k < 2 ^ e :=
  Nat.pow_lt_pow_right (by norm_num) h

/-- A quotient below `2^k`, `k < 2098`, rounds to a finite value. -/
theorem round_fin (neg : Bool) (p q k : Nat) (hq : 0 < q) (h : p < 2 ^ k * q) (hk : k < 2098) :
    F64.round neg p q = .fin neg (roundUnits p q) ∧ roundUnits p q ≤ 2 ^ k := by
  have hle := roundUnits_le p q k hq h
  refine ⟨?_, hle⟩
  unfold F64.round
  dsimp only
  have : 2 ^ k < overflow64 := by
    rw [overflow64_eq]; exact two_pow_lt k 2098 hk
  rw [if_neg (by omega)]

theorem ofInt_fin (a : Int) (h : a.natAbs ≤ 2 ^ 63) :
    ∃ n, F64.ofInt a = .fin (decide (a < 0)) n ∧ n ≤ 2 ^ 1138 := by
  unfold F64.ofInt
  have hp : a.natAbs * one64 < 2 ^ 1138 * 1 := by
    rw [one64_eq, Nat.mul_one]
    calc a.natAbs * 2 ^ 1074 ≤ 2 ^ 63 * 2 ^ 1074 := Nat.mul_le_mul_right _ h
      _ = 2 ^ (63 + 1074) := (pow_add 2 63 1074).symm
      _ < 2 ^ 1138 := two_pow_lt (63 + 1074) 1138 (by norm_num)
  obtain ⟨h1, h2⟩ := round_fin (decide (a < 0)) _ 1 1138 (by norm_num) hp (by norm_num)
  exact ⟨_, h1, h2⟩

theorem ofNat_nsPerSec : F64.ofNat nsPerSec = .fin false (nsPerSec * one64) := by decide!

theorem timeSub_range (t u : Time) : (timeSub t u).natAbs ≤ 2 ^ 63 := by
  unfold timeSub
  dsimp only
  split_ifs <;> omega

theorem durationSeconds_fin (d : Int) (h : d.natAbs ≤ 2 ^ 63) :
    ∃ s n, durationSeconds d = .fin s n := by
  unfold durationSeconds
  have ha : (Int.tdiv d nsPerSec).natAbs ≤ 2 ^ 63 := by
    rw [Int.natAbs_tdiv]
    exact le_trans (Nat.div_le_self _ _) h
  have hb : (Int.tmod d nsPerSec).natAbs ≤ 2 ^ 63 := by
    have h1 : (Int.tmod d nsPerSec).natAbs = d.natAbs % (nsPerSec : Int).natAbs := by
      cases d <;> simp [Int.tmod, Int.natAbs_ofNat] <;> rfl
    rw [h1]
    exact le_trans (Nat.mod_le _ _) h
  obtain ⟨n1, e1, b1⟩ := ofInt_fin _ ha
  obtain ⟨n2, e2, b2⟩ := ofInt_fin _ hb
  rw [e1, e2, ofNat_nsPerSec]
  have hns : nsPerSec * one64 ≠ 0 := by
    have := one64_pos
    simp [nsPerSec]; omega
  simp only [F64.div, if_neg hns]
  have hq : 0 < nsPerSec * one64 := Nat.pos_of_ne_zero hns
  have hp : n2 * one64 < 2 ^ 1138 * (nsPerSec * one64) := by
    have : n2 * one64 ≤ 2 ^ 1138 * one64 := Nat.mul_le_mul_right _ b2
    have h3 : 2 ^ 1138 * one64 < 2 ^ 1138 * (nsPerSec * one64) := by
      apply Nat.mul_lt_mul_of_pos_left _ (pow_pos (by norm_num) 1138)
      have := one64_pos
      simp only [nsPerSec]
      omega
    omega
  obtain ⟨h1, h2⟩ := round_fin (xor (decide (Int.tmod d nsPerSec < 0)) false) _ _ 1138 hq hp
    (by norm_num)
  rw [h1]
  simp only [F64.add]
  split_ifs
  · exact ⟨_, _, rfl⟩
  · have hu : ∀ (b : Bool) (n : Nat), (F64.units b n).natAbs = n := by
      intro b n; cases b <;> simp [F64.units]
    generalize hx : F64.units (decide (Int.tdiv d nsPerSec < 0)) n1 = x
    generalize hy : F64.units (xor (decide (Int.tmod d nsPerSec < 0)) false)
        (roundUnits (n2 * one64) (nsPerSec * one64)) = y
    have hxa : x.natAbs = n1 := by rw [← hx, hu]
    have hya : y.natAbs = roundUnits (n2 * one64) (nsPerSec * one64) := by rw [← hy, hu]
    have hsum : (x + y).natAbs < 2 ^ 1140 * 1 := by
      have h5 := Int.natAbs_add_le x y
      have h6 : (2:Nat) ^ 1140 = 2 ^ 1138 * 2 * 2 := by
        rw [show 1140 = 1138 + 1 + 1 from rfl, pow_succ, pow_succ]
      have h7 : 0 < 2 ^ 1138 := pow_pos (by norm_num) 1138
      omega
    obtain ⟨h8, _⟩ := round_fin (decide (x + y < 0)) _ 1 1140 (by norm_num) hsum (by norm_num)
    exact ⟨_, _, h8⟩

theorem lt_zero_of_not_le (s : Bool) (n : Nat) (h : F64.le (.fin s n) F64.zero = false) :
    F64.lt F64.zero (.fin s n) = true := by
  cases s <;> simp_all [F64.le, F64.lt, F64.zero, F64.units]
  omega

theorem one_pos : F64.lt F64.zero (F64.ofNat 1) = true := by decide!

/-- The divisor of the rate is a positive number, never zero, negative or NaN. -/
theorem elapsed_pos (ts1 ts2 : Time) : F64.lt F64.zero (elapsed ts1 ts2) = true := by
  unfold elapsed
  dsimp only
  obtain ⟨s, n, h⟩ := durationSeconds_fin (timeSub ts2 ts1) (timeSub_range _ _)
  rw [h]
  by_cases hle : F64.le (.fin s n) F64.zero = true
  · rw [if_pos hle]; exact one_pos
  · rw [if_neg hle]
    exact lt_zero_of_not_le s n (by simpa using hle)

/-! ## Exact products -/

theorem bitLen_le_of_lt (x k : Nat) (h : x < 2 ^ k) : bitLen x ≤ k := by
  by_cases hx : x = 0
  · subst hx
    have : bitLen 0 = 0 := by decide
    omega
  · have h1 := two_pow_bitLen_le x hx
    by_contra hc
    have : 2 ^ k ≤ 2 ^ (bitLen x - 1) := Nat.pow_le_pow_right (by norm_num) (by omega)
    omega

/-- What rounding returns is representable. -/
theorem representable_roundUnits (p q : Nat) : Representable (roundUnits p q) := by
  unfold roundUnits
  dsimp only
  generalize hsh : bitLen (p / q) - 53 = sh
  have hm := rne_le p (q * 2 ^ sh)
  rw [← Nat.div_div_eq_div_mul] at hm
  have hpos : 0 < 2 ^ sh := Nat.two_pow_pos sh
  have ht : p / q / 2 ^ sh < 2 ^ 53 := by
    rw [Nat.div_lt_iff_lt_mul hpos, ← pow_add]
    have h1 := lt_two_pow_bitLen (p / q)
    exact lt_of_lt_of_le h1 (Nat.pow_le_pow_right (by norm_num) (by omega))
  by_cases h53 : rne p (q * 2 ^ sh) < 2 ^ 53
  · exact ⟨_, sh, rfl, h53⟩
  · have he : rne p (q * 2 ^ sh) = 2 ^ 53 := by omega
    refine ⟨2 ^ 52, sh + 1, ?_, Nat.pow_lt_pow_right (by norm_num) (by norm_num)⟩
    rw [he, show 53 = 52 + 1 from rfl, pow_succ, pow_succ]
    ring

/-- A representable magnitude rounds to itself. -/
theorem roundUnits_exact (x q : Nat) (hq : 0 < q) (hx : Representable x) :
    roundUnits (x * q) q = x := by
  obtain ⟨m, j, rfl, hm⟩ := hx
  unfold roundUnits
  dsimp only
  rw [Nat.mul_div_cancel _ hq]
  generalize hsh : bitLen (m * 2 ^ j) - 53 = sh
  have hlt : m * 2 ^ j < 2 ^ (53 + j) := by
    rw [pow_add]
    exact Nat.mul_lt_mul_of_pos_right hm (Nat.two_pow_pos j)
  have hb := bitLen_le_of_lt _ _ hlt
  have hle : sh ≤ j := by omega
  obtain ⟨d, rfl⟩ := Nat.exists_eq_add_of_le hle
  have e : m * 2 ^ (sh + d) * q = (m * 2 ^ d) * (q * 2 ^ sh) := by
    rw [pow_add]; ring
  rw [e, rne_exact _ _ (Nat.mul_pos hq (Nat.two_pow_pos sh)), pow_add]
  ring

theorem representable_mul_two_pow (n k : Nat) (h : Representable n) :
    Representable (n * 2 ^ k) := by
  obtain ⟨m, j, rfl, hm⟩ := h
  exact ⟨m, j + k, by rw [pow_add]; ring, hm⟩

theorem ofNat_1024 : F64.ofNat 1024 = .fin false (2 ^ 10 * one64) := by decide!

theorem round_valid (neg : Bool) (p q : Nat) (v : F64) (h : F64.round neg p q = v) :
    F64.Valid v := by
  unfold F64.round at h
  dsimp only at h
  by_cases ho : overflow64 ≤ roundUnits p q
  · rw [if_pos ho] at h; subst h; trivial
  · rw [if_neg ho] at h; subst h; exact ⟨representable_roundUnits _ _, by omega⟩

theorem round_exact (neg : Bool) (x q : Nat) (hq : 0 < q) (hx : Representable x) :
    F64.round neg (x * q) q = if overflow64 ≤ x then .inf neg else .fin neg x := by
  unfold F64.round
  dsimp only
  rw [roundUnits_exact x q hq hx]

/-- Multiplying by 1024 is exact. -/
theorem mul_1024 (v : F64) (c : Nat) (hv : F64.Valid (F64.mulExact v (2 ^ c))) :
    F64.mul (F64.mulExact v (2 ^ c)) (F64.ofNat 1024) = F64.mulExact v (2 ^ (c + 10)) ∧
      F64.Valid (F64.mulExact v (2 ^ (c + 10))) := by
  rw [ofNat_1024]
  have hne : 2 ^ 10 * one64 ≠ 0 := Nat.ne_of_gt (Nat.mul_pos (Nat.two_pow_pos _) one64_pos)
  cases v with
  | nan => exact ⟨rfl, trivial⟩
  | inf s =>
    simp only [F64.mulExact, F64.mul, if_neg hne, Bool.xor_false, F64.Valid, and_self]
  | fin s n =>
    simp only [F64.mulExact] at hv ⊢
    have hmono : n * 2 ^ c ≤ n * 2 ^ (c + 10) :=
      Nat.mul_le_mul_left _ (Nat.pow_le_pow_right (by norm_num) (by omega))
    by_cases ho : overflow64 ≤ n * 2 ^ c
    · rw [if_pos ho, if_pos (le_trans ho hmono)]
      simp only [F64.mul, if_neg hne, Bool.xor_false, F64.Valid, and_self]
    · rw [if_neg ho] at hv ⊢
      have hv' : Representable (n * 2 ^ c) := hv.1
      have hrep : Representable (n * 2 ^ (c + 10)) := by
        have := representable_mul_two_pow _ 10 hv'
        rwa [Nat.mul_assoc, ← pow_add] at this
      have e : n * 2 ^ c * (2 ^ 10 * one64) = n * 2 ^ (c + 10) * one64 := by
        rw [pow_add]; ring
      have hm : F64.mul (.fin s (n * 2 ^ c)) (.fin false (2 ^ 10 * one64)) =
          F64.round s (n * 2 ^ (c + 10) * one64) one64 := by
        show F64.round (xor s false) (n * 2 ^ c * (2 ^ 10 * one64)) one64 = _
        rw [e, Bool.xor_false]
      rw [hm, round_exact s _ one64 one64_pos hrep]
      refine ⟨?_, ?_⟩
      · rfl
      by_cases h : overflow64 ≤ n * 2 ^ (c + 10)
      · rw [if_pos h]; trivial
      · rw [if_neg h]; exact ⟨hrep, by omega⟩

theorem decimalToF64_valid (neg : Bool) (mant fl : Nat) (en : Bool) (e : Nat) (v : F64)
    (hd : decimalToF64 neg mant fl en e = some v) : F64.Valid v := by
  unfold decimalToF64 at hd
  dsimp only at hd
  split at hd
  · rename_i s n hr
    cases Option.some.inj hd
    by_cases h0 : 0 ≤ (if en = true then -(e:Int) else e) - fl
    · rw [if_pos h0] at hr; exact round_valid _ _ _ _ hr
    · rw [if_neg h0] at hr; exact round_valid _ _ _ _ hr
  · cases hd

theorem hexToF64_valid (neg : Bool) (mant fl : Nat) (en : Bool) (e : Nat) (v : F64)
    (hd : hexToF64 neg mant fl en e = some v) : F64.Valid v := by
  unfold hexToF64 at hd
  dsimp only at hd
  split at hd
  · rename_i s n hr
    cases Option.some.inj hd
    by_cases h0 : 0 ≤ (if en = true then -(e:Int) else e) - 4 * fl
    · rw [if_pos h0] at hr; exact round_valid _ _ _ _ hr
    · rw [if_neg h0] at hr; exact round_valid _ _ _ _ hr
  · cases hd

/-- What `strconv.ParseFloat` returns is a value of type `float64`. -/
theorem parseFloat_valid (tok : List Char) (v : F64) (h : parseFloat tok = some v) :
    F64.Valid v := by
  unfold parseFloat at h
  split_ifs at h
  · cases Option.some.inj h; trivial
  · cases Option.some.inj h; trivial
  · cases hl : readFloat tok with
    | none => rw [hl] at h; cases h
    | some l =>
      rw [hl] at h
      dsimp only at h
      by_cases hx : l.hex = true
      · rw [if_pos hx] at h; exact hexToF64_valid _ _ _ _ _ _ h
      · rw [if_neg hx] at h; exact decimalToF64_valid _ _ _ _ _ _ h

theorem mulExact_one (v : F64) (hv : F64.Valid v) : F64.mulExact v (2 ^ 0) = v := by
  cases v with
  | nan => rfl
  | inf s => rfl
  | fin s n =>
    have h : ¬ overflow64 ≤ n := by
      have := hv.2
      omega
    simp only [F64.mulExact, pow_zero, Nat.mul_one, if_neg h]

/-! ## The selection of the sample lines -/

theorem collectStatsLines_eq (rev acc : List (List Char)) (h : acc.length ≤ 2) :
    collectStatsLines rev acc = acc ++ (rev.filter isStatsLine).take (2 - acc.length) := by
  induction rev generalizing acc with
  | nil => simp [collectStatsLines]
  | cons l rest ih =>
    unfold collectStatsLines
    by_cases hlen : acc.length < 2
    · rw [if_pos hlen]
      by_cases hm : contains l marker = true
      · rw [if_pos hm, ih _ (by simp; omega)]
        have h2 : 2 - acc.length = (2 - (acc.length + 1)) + 1 := by omega
        simp only [List.filter_cons, isStatsLine, hm, if_true, List.length_append,
          List.length_singleton]
        rw [h2, List.take_succ_cons]
        simp
      · rw [if_neg hm, ih _ h]
        simp [List.filter_cons, isStatsLine, hm]
    · rw [if_neg hlen]
      have : 2 - acc.length = 0 := by omega
      simp [this]

theorem swapIfTwo_eq_reverse (xs : List (List Char)) (h : xs.length ≤ 2) :
    swapIfTwo xs = xs.reverse := by
  match xs, h with
  | [], _ => rfl
  | [_], _ => rfl
  | [_, _], _ => rfl
  | _ :: _ :: _ :: _, h => simp at h

theorem selectStatsLines_eq (lines : List (List Char)) :
    selectStatsLines lines =
      (lines.filter isStatsLine).drop ((lines.filter isStatsLine).length - 2) := by
  unfold selectStatsLines
  rw [collectStatsLines_eq _ _ (by simp)]
  simp only [List.nil_append, List.length_nil, Nat.sub_zero]
  rw [swapIfTwo_eq_reverse _ (by simp [List.length_take])]
  rw [List.filter_reverse, List.take_reverse, List.reverse_reverse]

theorem selectStatsLines_length (lines : List (List Char)) :
    (selectStatsLines lines).length = min 2 (lines.filter isStatsLine).length := by
  rw [selectStatsLines_eq, List.length_drop]; omega

theorem selectStatsLines_idem (lines : List (List Char)) :
    selectStatsLines (selectStatsLines lines) = selectStatsLines lines := by
  have hlen := selectStatsLines_length lines
  have hf : (selectStatsLines lines).filter isStatsLine = selectStatsLines lines := by
    rw [List.filter_eq_self]
    intro a ha
    rw [selectStatsLines_eq] at ha
    exact (List.mem_filter.mp (List.mem_of_mem_drop ha)).2
  conv_lhs => rw [selectStatsLines_eq, hf]
  have : (selectStatsLines lines).length - 2 = 0 := by omega
  rw [this, List.drop_zero]

theorem statsFromLines_select (lines : List (List Char)) :
    statsFromLines (selectStatsLines lines) = statsFromLines lines := by
  unfold statsFromLines
  rw [selectStatsLines_idem]

theorem selectStatsLines_cases (lines : List (List Char)) :
    (lines.filter isStatsLine = [] ∧ selectStatsLines lines = []) ∨
    (∃ l, lines.filter isStatsLine = [l] ∧ selectStatsLines lines = [l]) ∨
    (∃ pre l1 l2, lines.filter isStatsLine = pre ++ [l1, l2] ∧
      selectStatsLines lines = [l1, l2]) := by
  rw [selectStatsLines_eq]
  generalize lines.filter isStatsLine = ms
  rcases List.eq_nil_or_concat ms with h | ⟨init, b, h⟩
  · left; simp [h]
  · right
    rcases List.eq_nil_or_concat init with h2 | ⟨pre, a, h2⟩
    · left; exact ⟨b, by simp [h, h2]⟩
    · right
      refine ⟨pre, a, b, by simp [h, h2], ?_⟩
      subst h h2
      simp

theorem formatBytesPerSec_suffix (bps : F64) :
    ∃ pre, formatBytesPerSec bps = pre ++ "/s".toList := by
  unfold formatBytesPerSec
  generalize (if F64.lt bps F64.zero then F64.zero else bps) = b
  dsimp only
  split_ifs
  · exact ⟨fmtFixed 2 (F64.div b (F64.ofNat GB)) ++ " GB".toList, by simp⟩
  · exact ⟨fmtFixed 2 (F64.div b (F64.ofNat MB)) ++ " MB".toList, by simp⟩
  · exact ⟨fmtFixed 1 (F64.div b (F64.ofNat KB)) ++ " KB".toList, by simp⟩
  · exact ⟨fmtFixed 0 b ++ " B".toList, by simp⟩

theorem formatBytesPerSec_ne_dash (bps : F64) : formatBytesPerSec bps ≠ "-".toList := by
  obtain ⟨pre, h⟩ := formatBytesPerSec_suffix bps
  rw [h]
  intro hc
  have := congrArg List.length hc
  simp at this

/-! ## The rate -/

theorem formatBytesPerSec_clampRate (x : F64) :
    formatBytesPerSec (clampRate x) = formatBytesPerSec x := by
  unfold clampRate
  by_cases h : F64.lt x F64.zero = true
  · rw [if_pos h]
    unfold formatBytesPerSec
    rw [if_pos h]
    have : F64.lt F64.zero F64.zero = false := by decide
    simp [this]
  · rw [if_neg h]

theorem roundUnits_zero (q : Nat) (hq : 0 < q) : roundUnits 0 q = 0 := by
  unfold roundUnits
  have hb : bitLen (0 / q) = 0 := by rw [Nat.zero_div]; rfl
  simp only [hb, rne]
  simp [hq]

theorem units_natAbs (b : Bool) (n : Nat) : (F64.units b n).natAbs = n := by
  cases b <;> simp [F64.units]

/-- The conversion of an integer of 64 bits keeps its sign: the units of the
result are zero for zero and at least one whole for any other integer. -/
theorem ofInt_sign (a : Int) (h : a.natAbs ≤ 2 ^ 63) :
    ∃ n, F64.ofInt a = .fin (decide (a < 0)) n ∧ n ≤ 2 ^ 1138 ∧
      (a = 0 → n = 0) ∧ (a ≠ 0 → one64 ≤ n) := by
  unfold F64.ofInt
  have hp : a.natAbs * one64 < 2 ^ 1138 * 1 := by
    rw [one64_eq, Nat.mul_one]
    calc a.natAbs * 2 ^ 1074 ≤ 2 ^ 63 * 2 ^ 1074 := Nat.mul_le_mul_right _ h
      _ = 2 ^ (63 + 1074) := (pow_add 2 63 1074).symm
      _ < 2 ^ 1138 := two_pow_lt (63 + 1074) 1138 (by norm_num)
  obtain ⟨h1, h2⟩ := round_fin (decide (a < 0)) _ 1 1138 (by norm_num) hp (by norm_num)
  refine ⟨_, h1, h2, ?_, ?_⟩
  · intro ha
    rw [ha]
    simp only [Int.natAbs_zero, Nat.zero_mul]
    exact roundUnits_zero 1 (by norm_num)
  · intro ha
    have hpos : 1 ≤ a.natAbs := Nat.pos_of_ne_zero (fun h0 => ha (Int.natAbs_eq_zero.mp h0))
    have := le_roundUnits (a.natAbs * one64) 1 1074 (by norm_num) (by
      rw [Nat.mul_one, ← one64_eq]
      calc one64 = 1 * one64 := (Nat.one_mul _).symm
        _ ≤ a.natAbs * one64 := Nat.mul_le_mul_right _ hpos)
    rw [← one64_eq] at this
    exact this

/-- Truncated division by a second keeps the sign of a duration. -/
theorem tdiv_tmod_sign (d : Int) :
    (0 ≤ d → 0 ≤ Int.tdiv d nsPerSec ∧ 0 ≤ Int.tmod d nsPerSec) ∧
    (d ≤ 0 → Int.tdiv d nsPerSec ≤ 0 ∧ Int.tmod d nsPerSec ≤ 0) ∧
    (d ≠ 0 → Int.tdiv d nsPerSec ≠ 0 ∨ Int.tmod d nsPerSec ≠ 0) := by
  have hsum := Int.tdiv_add_tmod d nsPerSec
  refine ⟨?_, ?_, ?_⟩
  · intro h
    exact ⟨Int.tdiv_nonneg h (by decide), Int.tmod_nonneg _ h⟩
  · intro h
    have hn : 0 ≤ -d := by omega
    have h1 := Int.tdiv_nonneg hn (show (0 : Int) ≤ (nsPerSec : Int) by decide)
    have h2 := Int.tmod_nonneg (nsPerSec : Int) hn
    have hsum2 := Int.tdiv_add_tmod (-d) nsPerSec
    rw [Int.neg_tdiv] at h1 hsum2
    have h3 : Int.tmod (-d) nsPerSec = -Int.tmod d nsPerSec := by
      have e1 : (nsPerSec : Int) * -(Int.tdiv d nsPerSec) = -((nsPerSec : Int) * Int.tdiv d nsPerSec) :=
        mul_neg _ _
      rw [e1] at hsum2
      omega
    rw [h3] at h2
    constructor <;> omega
  · intro h
    by_contra hc
    push_neg at hc
    rw [hc.1, hc.2] at hsum
    simp at hsum
    exact h hsum.symm

/-- The seconds of a duration have the sign of the duration. -/
theorem durationSeconds_sign (d : Int) (h : d.natAbs ≤ 2 ^ 63) :
    ∃ s n, durationSeconds d = .fin s n ∧ (0 < d → 0 < F64.units s n) ∧
      (d ≤ 0 → F64.units s n ≤ 0) := by
  unfold durationSeconds
  have ha : (Int.tdiv d nsPerSec).natAbs ≤ 2 ^ 63 := by
    rw [Int.natAbs_tdiv]
    exact le_trans (Nat.div_le_self _ _) h
  have hb : (Int.tmod d nsPerSec).natAbs ≤ 2 ^ 63 := by
    have h1 : (Int.tmod d nsPerSec).natAbs = d.natAbs % (nsPerSec : Int).natAbs := by
      cases d <;> simp [Int.tmod, Int.natAbs_ofNat] <;> rfl
    rw [h1]
    exact le_trans (Nat.mod_le _ _) h
  obtain ⟨hnn, hnp, hnz⟩ := tdiv_tmod_sign d
  obtain ⟨n1, e1, b1, z1, p1⟩ := ofInt_sign _ ha
  obtain ⟨n2, e2, b2, z2, p2⟩ := ofInt_sign _ hb
  rw [e1, e2, ofNat_nsPerSec]
  have hns : nsPerSec * one64 ≠ 0 := by
    have := one64_pos
    simp [nsPerSec]; omega
  simp only [F64.div, if_neg hns]
  have hq : 0 < nsPerSec * one64 := Nat.pos_of_ne_zero hns
  have hp : n2 * one64 < 2 ^ 1138 * (nsPerSec * one64) := by
    have : n2 * one64 ≤ 2 ^ 1138 * one64 := Nat.mul_le_mul_right _ b2
    have h3 : 2 ^ 1138 * one64 < 2 ^ 1138 * (nsPerSec * one64) := by
      apply Nat.mul_lt_mul_of_pos_left _ (pow_pos (by norm_num) 1138)
      have := one64_pos
      simp only [nsPerSec]
      omega
    omega
  obtain ⟨h1, h2⟩ := round_fin (xor (decide (Int.tmod d nsPerSec < 0)) false) _ _ 1138 hq hp
    (by norm_num)
  rw [h1]
  -- the quotient of the nanoseconds is zero or positive like the nanoseconds
  have q0 : Int.tmod d nsPerSec = 0 → roundUnits (n2 * one64) (nsPerSec * one64) = 0 := by
    intro hz
    rw [z2 hz, Nat.zero_mul]
    exact roundUnits_zero _ hq
  have qp : Int.tmod d nsPerSec ≠ 0 → 0 < roundUnits (n2 * one64) (nsPerSec * one64) := by
    intro hz
    have hn2 := p2 hz
    have hk : 2 ^ 1044 * (nsPerSec * one64) ≤ n2 * one64 := by
      have h30 : 2 ^ 1044 * nsPerSec ≤ one64 := by
        have : nsPerSec ≤ 2 ^ 30 := by decide
        rw [one64_eq, show (1074 : Nat) = 1044 + 30 from rfl, pow_add]
        exact Nat.mul_le_mul_left _ this
      calc 2 ^ 1044 * (nsPerSec * one64) = (2 ^ 1044 * nsPerSec) * one64 := (Nat.mul_assoc _ _ _).symm
        _ ≤ one64 * one64 := Nat.mul_le_mul_right _ h30
        _ ≤ n2 * one64 := Nat.mul_le_mul_right _ hn2
    have := le_roundUnits _ _ 1044 hq hk
    exact lt_of_lt_of_le (pow_pos (by norm_num) 1044) this
  generalize hy0 : roundUnits (n2 * one64) (nsPerSec * one64) = r at h2 q0 qp
  simp only [F64.add]
  generalize hx : F64.units (decide (Int.tdiv d nsPerSec < 0)) n1 = x
  generalize hy : F64.units (xor (decide (Int.tmod d nsPerSec < 0)) false) r = y
  have hxa : x.natAbs = n1 := by rw [← hx, units_natAbs]
  have hya : y.natAbs = r := by rw [← hy, units_natAbs]
  -- the signs of the two summands
  have hxs : (0 ≤ Int.tdiv d nsPerSec → 0 ≤ x) ∧ (Int.tdiv d nsPerSec ≤ 0 → x ≤ 0) ∧
      (Int.tdiv d nsPerSec ≠ 0 → x ≠ 0) := by
    rw [← hx]
    refine ⟨?_, ?_, ?_⟩
    · intro h0
      rw [show decide (Int.tdiv d nsPerSec < 0) = false from decide_eq_false (by omega)]
      simp [F64.units]
    · intro h0
      by_cases hz : Int.tdiv d nsPerSec = 0
      · rw [z1 hz]; cases decide (Int.tdiv d nsPerSec < 0) <;> simp [F64.units]
      · rw [show decide (Int.tdiv d nsPerSec < 0) = true from decide_eq_true (by omega)]
        simp [F64.units]
    · intro hz
      have := p1 hz
      have h1p := one64_pos
      cases decide (Int.tdiv d nsPerSec < 0) <;> simp [F64.units] <;> omega
  have hys : (0 ≤ Int.tmod d nsPerSec → 0 ≤ y) ∧ (Int.tmod d nsPerSec ≤ 0 → y ≤ 0) ∧
      (Int.tmod d nsPerSec ≠ 0 → y ≠ 0) := by
    rw [← hy]
    refine ⟨?_, ?_, ?_⟩
    · intro h0
      rw [show decide (Int.tmod d nsPerSec < 0) = false from decide_eq_false (by omega)]
      simp [F64.units]
    · intro h0
      by_cases hz : Int.tmod d nsPerSec = 0
      · rw [q0 hz]; cases decide (Int.tmod d nsPerSec < 0) <;> simp [F64.units]
      · rw [show decide (Int.tmod d nsPerSec < 0) = true from decide_eq_true (by omega)]
        simp [F64.units]
    · intro hz
      have := qp hz
      cases decide (Int.tmod d nsPerSec < 0) <;> simp [F64.units] <;> omega
  by_cases hs : x + y = 0
  · rw [if_pos hs]
    refine ⟨_, _, rfl, ?_, ?_⟩
    · intro hd
      exfalso
      obtain ⟨a1, a2⟩ := hnn (le_of_lt hd)
      have hx0 := hxs.1 a1
      have hy0' := hys.1 a2
      rcases hnz (by omega) with hz | hz
      · exact hxs.2.2 hz (by omega)
      · exact hys.2.2 hz (by omega)
    · intro _
      cases (decide (Int.tdiv d nsPerSec < 0) && xor (decide (Int.tmod d nsPerSec < 0)) false) <;>
        simp [F64.units]
  · rw [if_neg hs]
    have hsum : (x + y).natAbs < 2 ^ 1140 * 1 := by
      have h5 := Int.natAbs_add_le x y
      have h6 : (2:Nat) ^ 1140 = 2 ^ 1138 * 2 * 2 := by
        rw [show 1140 = 1138 + 1 + 1 from rfl, pow_succ, pow_succ]
      have h7 : 0 < 2 ^ 1138 := pow_pos (by norm_num) 1138
      omega
    obtain ⟨h8, _⟩ := round_fin (decide (x + y < 0)) _ 1 1140 (by norm_num) hsum (by norm_num)
    have hpos : 0 < roundUnits (x + y).natAbs 1 := by
      have h1le : 2 ^ 0 * 1 ≤ (x + y).natAbs := by
        have := Int.natAbs_pos.mpr hs
        rw [pow_zero, Nat.one_mul]
        exact this
      have := le_roundUnits _ 1 0 (by norm_num) h1le
      rw [pow_zero] at this
      exact this
    refine ⟨_, _, h8, ?_, ?_⟩
    · intro hd
      obtain ⟨a1, a2⟩ := hnn (le_of_lt hd)
      have hx0 := hxs.1 a1
      have hy0' := hys.1 a2
      rw [show decide (x + y < 0) = false from decide_eq_false (by omega)]
      simp only [F64.units, Bool.false_eq_true, if_false]
      exact_mod_cast hpos
    · intro hd
      obtain ⟨a1, a2⟩ := hnp hd
      have hx0 := hxs.2.1 a1
      have hy0' := hys.2.1 a2
      rw [show decide (x + y < 0) = true from decide_eq_true (by omega)]
      simp only [F64.units, if_true]
      omega

/-- The difference `t.Sub(u)` of a later and an earlier instant is their
difference, limited to the largest duration. -/
theorem timeSub_later (t u : Nat) (h : u < t) :
    timeSub t u = min ((t : Int) - (u : Int)) maxDuration := by
  unfold timeSub maxDuration
  dsimp only
  have hpos : (0 : Int) < (t : Int) - (u : Int) := by omega
  have e : (2 : Int) ^ 63 = 9223372036854775808 := by norm_num
  rw [e]
  rw [if_neg (by omega)]
  by_cases hb : (9223372036854775808 : Int) - 1 < (t : Int) - (u : Int)
  · rw [if_pos hb, min_eq_right (by omega)]
  · rw [if_neg hb, min_eq_left (by omega)]

/-- The difference `t.Sub(u)` is not positive when `t` is not later than `u`. -/
theorem timeSub_not_later (t u : Nat) (h : t ≤ u) : timeSub t u ≤ 0 := by
  unfold timeSub
  dsimp only
  have hpos : (t : Int) - (u : Int) ≤ 0 := by omega
  have e : (2 : Int) ^ 63 = 9223372036854775808 := by norm_num
  rw [e]
  by_cases ha : (t : Int) - (u : Int) < -9223372036854775808
  · rw [if_pos ha]; omega
  · rw [if_neg ha, if_neg (by omega)]; exact hpos

/-- The divisor of the program is the difference of the timestamps, limited to
the largest duration, when the newer timestamp is the later one, and `1`
otherwise. -/
theorem elapsed_eq_boundedDt (ts1 ts2 : Nat) : elapsed ts1 ts2 = boundedDt ts1 ts2 := by
  unfold elapsed boundedDt
  dsimp only
  obtain ⟨s, n, h, hp, hn⟩ := durationSeconds_sign (timeSub ts2 ts1) (timeSub_range _ _)
  by_cases hlt : ts1 < ts2
  · rw [if_pos hlt, ← timeSub_later ts2 ts1 hlt, h]
    have hd : 0 < timeSub ts2 ts1 := by
      rw [timeSub_later ts2 ts1 hlt]
      have : (0 : Int) < (ts2 : Int) - (ts1 : Int) := by omega
      have hm : (0 : Int) < maxDuration := by decide
      exact lt_min this hm
    have hu := hp hd
    have hle : F64.le (.fin s n) F64.zero = false := by
      simp only [F64.le, F64.zero]
      have : F64.units false 0 = 0 := rfl
      rw [this]
      exact decide_eq_false (by omega)
    rw [hle]
    rfl
  · rw [if_neg hlt, h]
    have hu := hn (timeSub_not_later ts2 ts1 (by omega))
    have hle : F64.le (.fin s n) F64.zero = true := by
      simp only [F64.le, F64.zero]
      have : F64.units false 0 = 0 := rfl
      rw [this]
      exact decide_eq_true hu
    rw [hle]
    rfl

/-- Within the range of a duration the limit does not bite: the divisor is the
`dt` of the specification. -/
theorem boundedDt_eq_claimDt (ts1 ts2 : Nat)
    (h : (ts2 : Int) - (ts1 : Int) ≤ maxDuration) : boundedDt ts1 ts2 = claimDt ts1 ts2 := by
  unfold boundedDt claimDt
  rw [min_eq_left h]

/-! ## Formatting -/

/-- A value at least the constant `c` divided by `c` is at least `1`. -/
theorem div_ge_one (b : F64) (c : Nat) (hc : 0 < c)
    (h : F64.ge b (.fin false (c * one64)) = true) :
    F64.ge (F64.div b (.fin false (c * one64))) (.fin false one64) = true := by
  have hq : 0 < c * one64 := Nat.mul_pos hc one64_pos
  cases b with
  | nan => simp [F64.ge, F64.le] at h
  | inf s =>
    cases s
    · simp [F64.div, F64.ge, F64.le]
    · simp [F64.ge, F64.le] at h
  | fin s n =>
    have hn : c * one64 ≤ n ∧ s = false := by
      cases s
      · simp [F64.ge, F64.le, F64.units] at h
        exact ⟨by exact_mod_cast h, rfl⟩
      · simp [F64.ge, F64.le, F64.units] at h
        omega
    obtain ⟨hn, rfl⟩ := hn
    have hr : 2 ^ 1074 ≤ roundUnits (n * one64) (c * one64) := by
      apply le_roundUnits _ _ _ hq
      rw [← one64_eq]
      calc one64 * (c * one64) = (c * one64) * one64 := Nat.mul_comm _ _
        _ ≤ n * one64 := Nat.mul_le_mul_right _ hn
    rw [← one64_eq] at hr
    simp only [F64.div, if_neg (Nat.ne_of_gt hq), F64.round]
    split_ifs
    · simp [F64.ge, F64.le]
    · simp [F64.ge, F64.le, F64.units]
      exact_mod_cast hr

theorem ofNat_GB : F64.ofNat GB = .fin false (GB * one64) := by decide!
theorem ofNat_MB : F64.ofNat MB = .fin false (MB * one64) := by decide!
theorem ofNat_KB : F64.ofNat KB = .fin false (KB * one64) := by decide!
theorem ofNat_one : F64.ofNat 1 = .fin false one64 := by decide!

theorem natDigitsAux_length (fuel n w : Nat) (acc : List Char) (hf : n < fuel)
    (h : n < 10 ^ (w + 1)) :
    (natDigitsAux fuel n acc).length ≤ w + 1 + acc.length := by
  induction fuel generalizing n w acc with
  | zero => omega
  | succ fuel ih =>
    unfold natDigitsAux
    by_cases h10 : n < 10
    · rw [if_pos h10]; simp; omega
    · rw [if_neg h10]
      cases w with
      | zero => simp at h; omega
      | succ w =>
        have h2 : n / 10 < 10 ^ (w + 1) := by
          rw [Nat.div_lt_iff_lt_mul (by norm_num)]
          rw [pow_succ] at h; exact h
        have := ih (n / 10) w (digitChar (n % 10) :: acc) (by omega) h2
        simp at this ⊢
        omega

theorem natDigits_length (n w : Nat) (h : n < 10 ^ (w + 1)) : (natDigits n).length ≤ w + 1 := by
  have := natDigitsAux_length (n + 1) n w [] (by omega) h
  simpa [natDigits] using this

theorem padDigits_length (w n : Nat) (hw : 0 < w) (h : n < 10 ^ w) :
    (padDigits w n).length = w := by
  obtain ⟨w, rfl⟩ := Nat.exists_eq_succ_of_ne_zero (Nat.ne_of_gt hw)
  have := natDigits_length n w h
  simp [padDigits]
  omega

theorem digitChar_ne_point (d : Nat) (h : d < 10) : digitChar d ≠ '.' := by
  interval_cases d <;> decide

theorem natDigitsAux_no_point (fuel n : Nat) (acc : List Char) (hacc : '.' ∉ acc) :
    '.' ∉ natDigitsAux fuel n acc := by
  induction fuel generalizing n acc with
  | zero => simpa [natDigitsAux] using hacc
  | succ fuel ih =>
    unfold natDigitsAux
    split_ifs with h10
    · intro hm
      rcases List.mem_cons.mp hm with h | h
      · exact digitChar_ne_point n h10 h.symm
      · exact hacc h
    · apply ih
      intro hm
      rcases List.mem_cons.mp hm with h | h
      · exact digitChar_ne_point (n % 10) (Nat.mod_lt _ (by norm_num)) h.symm
      · exact hacc h

theorem natDigits_no_point (n : Nat) : '.' ∉ natDigits n :=
  natDigitsAux_no_point _ _ _ (by simp)

/-- The verb `%.<prec>f` on a finite value prints exactly `prec` decimals after
the point, and no point when `prec` is zero. -/
theorem fmtFixed_decimals (prec : Nat) (s : Bool) (n : Nat) :
    ∃ ip fp, fmtFixed prec (.fin s n) = ip ++ fp ∧ '.' ∉ ip ∧
      (prec = 0 → fp = []) ∧ (0 < prec → ∃ ds, fp = '.' :: ds ∧ ds.length = prec) := by
  unfold fmtFixed
  dsimp only
  refine ⟨(if s then ['-'] else []) ++ natDigits (rne (n * 10 ^ prec) one64 / 10 ^ prec),
    (if prec = 0 then [] else '.' :: padDigits prec (rne (n * 10 ^ prec) one64 % 10 ^ prec)),
    rfl, ?_, ?_, ?_⟩
  · intro hm
    rcases List.mem_append.mp hm with h | h
    · cases s <;> simp at h
    · exact natDigits_no_point _ h
  · intro h0; simp [h0]
  · intro hp
    rw [if_neg (Nat.ne_of_gt hp)]
    exact ⟨_, rfl, padDigits_length _ _ hp (Nat.mod_lt _ (Nat.pos_pow_of_pos _ (by norm_num)))⟩

theorem formatBytesPerSec_eq (bps : F64) :
    formatBytesPerSec bps =
      if F64.ge (clampRate bps) (F64.ofNat GB) then
        fmtFixed 2 (F64.div (clampRate bps) (F64.ofNat GB)) ++ " GB/s".toList
      else if F64.ge (clampRate bps) (F64.ofNat MB) then
        fmtFixed 2 (F64.div (clampRate bps) (F64.ofNat MB)) ++ " MB/s".toList
      else if F64.ge (clampRate bps) (F64.ofNat KB) then
        fmtFixed 1 (F64.div (clampRate bps) (F64.ofNat KB)) ++ " KB/s".toList
      else fmtFixed 0 (clampRate bps) ++ " B/s".toList := rfl

theorem formatBytesPerSec_zero : formatBytesPerSec F64.zero = "0 B/s".toList := by decide!

/-- The `>=` of `float64` against a smaller constant follows from `>=` against
a larger one. -/
theorem ge_const_mono (b : F64) (c d : Nat) (hcd : d ≤ c)
    (h : F64.ge b (.fin false (c * one64)) = true) :
    F64.ge b (.fin false (d * one64)) = true := by
  have hm : d * one64 ≤ c * one64 := Nat.mul_le_mul_right _ hcd
  cases b with
  | nan => simp [F64.ge, F64.le] at h
  | inf s => simpa [F64.ge, F64.le] using h
  | fin s n =>
    cases s
    · simp only [F64.ge, F64.le, F64.units, decide_eq_true_eq] at h ⊢
      simp only [Bool.false_eq_true, if_false] at h ⊢
      have h' : c * one64 ≤ n := by exact_mod_cast h
      exact_mod_cast le_trans hm h'
    · simp only [F64.ge, F64.le, F64.units, decide_eq_true_eq] at h ⊢
      simp only [Bool.false_eq_true, if_false, if_true] at h ⊢
      have h0 : (0:Int) ≤ ((c * one64 : Nat) : Int) := Int.natCast_nonneg _
      have h1 : (0:Int) ≤ ((d * one64 : Nat) : Int) := Int.natCast_nonneg _
      have h2 : (0:Int) ≤ (n : Int) := Int.natCast_nonneg _
      push_cast at h h0 h1 ⊢
      have hc0 : (c : Int) * (one64 : Int) ≤ 0 := by omega
      have : ((c * one64 : Nat) : Int) = 0 := by push_cast; omega
      have hz : c * one64 = 0 := by exact_mod_cast this
      have hz' : d * one64 = 0 := by omega
      have : ((d * one64 : Nat) : Int) = 0 := by exact_mod_cast hz'
      push_cast at this
      omega


theorem formatBytesPerSec_neg (x : F64) (h : F64.lt x F64.zero = true) :
    formatBytesPerSec x = "0 B/s".toList := by
  have hz : clampRate x = F64.zero := by simp [clampRate, h]
  rw [← formatBytesPerSec_clampRate, hz, formatBytesPerSec_zero]

/-- The `max(0, x)` of the specification is what `formatBytesPerSec` does to its
argument, negative zero apart. -/
theorem formatBytesPerSec_max0 (x : F64) (h : x ≠ .fin true 0) :
    formatBytesPerSec (max0 x) = formatBytesPerSec x := by
  cases x with
  | nan => rfl
  | inf s =>
    cases s
    · rfl
    · show formatBytesPerSec F64.zero = _
      rw [formatBytesPerSec_zero, formatBytesPerSec_neg _ (by rfl)]
  | fin s n =>
    show formatBytesPerSec (if F64.lt F64.zero (.fin s n) then .fin s n else F64.zero) = _
    by_cases hp : F64.lt F64.zero (.fin s n) = true
    · rw [if_pos hp]
    · rw [if_neg hp]
      by_cases hn : F64.lt (.fin s n) F64.zero = true
      · rw [formatBytesPerSec_zero, formatBytesPerSec_neg _ hn]
      · have h0 : n = 0 := by
          cases s <;> simp [F64.lt, F64.zero, F64.units] at hp hn <;> omega
        subst h0
        cases s
        · rfl
        · exact absurd rfl h

/-! ## Scanning a size -/

theorem dropWhile_all {α : Type} (p : α → Bool) (ws rest : List α) (h : ∀ c ∈ ws, p c = true) :
    (ws ++ rest).dropWhile p = rest.dropWhile p := by
  induction ws with
  | nil => rfl
  | cons w ws ih =>
    rw [List.cons_append, List.dropWhile_cons, if_pos (h w (List.mem_cons_self _ _))]
    exact ih (fun c hc => h c (List.mem_cons_of_mem _ hc))

theorem takeWhile_all {α : Type} (p : α → Bool) (ws rest : List α) (h : ∀ c ∈ ws, p c = true) :
    (ws ++ rest).takeWhile p = ws ++ rest.takeWhile p := by
  induction ws with
  | nil => rfl
  | cons w ws ih =>
    rw [List.cons_append, List.takeWhile_cons, if_pos (h w (List.mem_cons_self _ _))]
    rw [ih (fun c hc => h c (List.mem_cons_of_mem _ hc))]
    rfl

/-- Trimming removes the white space around a text that neither starts nor
ends with a space. -/
theorem trimSpace_pad (ws1 ws2 body : List Char) (b0 bl : Char) (mid : List Char)
    (h1 : ∀ c ∈ ws1, isSpace c = true) (h2 : ∀ c ∈ ws2, isSpace c = true)
    (hb : body = b0 :: mid) (hb' : body.reverse.head? = some bl)
    (h0 : isSpace b0 = false) (hl : isSpace bl = false) :
    trimSpace (ws1 ++ body ++ ws2) = body := by
  unfold trimSpace trimLeft trimRight
  rw [List.append_assoc, dropWhile_all _ _ _ h1, hb, List.cons_append, List.dropWhile_cons,
    if_neg (by simp [h0]), ← List.cons_append, ← hb, List.reverse_append,
    dropWhile_all _ _ _ (by intro c hc; exact h2 c (List.mem_reverse.mp hc))]
  cases hr : body.reverse with
  | nil => rw [hr] at hb'; simp at hb'
  | cons x xs =>
    rw [hr] at hb'
    simp only [List.head?_cons, Option.some.injEq] at hb'
    subst hb'
    rw [List.dropWhile_cons, if_neg (by simp [hl]), ← hr, List.reverse_reverse]

theorem digit_facts (d : Char) (h : d ∈ decimalDigits) :
    "nN".toList.contains d = false ∧ "+-".toList.contains d = false ∧
      "iI".toList.contains d = false ∧ "xX".toList.contains d = false ∧
      "0123456789_".toList.contains d = true ∧ isSpace d = false := by
  simp only [decimalDigits, String.toList, List.mem_cons, List.mem_singleton, List.not_mem_nil,
    or_false] at h
  rcases h with h | h | h | h | h | h | h | h | h | h <;> subst h <;> decide

theorem not_contains_of_space (set : List Char) (hset : ∀ d ∈ set, isSpace d = false) (c : Char)
    (h : isSpace c = true) : set.contains c = false := by
  cases hc : set.contains c with
  | false => rfl
  | true =>
    have hm : c ∈ set := by simpa using hc
    have := hset c hm
    rw [h] at this
    cases this

theorem accept_fail (set buf : List Char) (c : Char) (cs : List Char)
    (h : set.contains c = false) : accept set (buf, c :: cs) = (false, (buf, c :: cs)) := by
  show (if set.contains c then _ else _) = _
  rw [h]; rfl

theorem accept_ok (set buf : List Char) (c : Char) (cs : List Char)
    (h : set.contains c = true) : accept set (buf, c :: cs) = (true, (buf ++ [c], cs)) := by
  show (if set.contains c then _ else _) = _
  rw [h]; rfl

theorem accept_stop (set buf tl : List Char) (hset : ∀ d ∈ set, isSpace d = false)
    (htl : endOfNumber tl = true) : accept set (buf, tl) = (false, (buf, tl)) := by
  cases tl with
  | nil => rfl
  | cons c rest => exact accept_fail _ _ _ _ (not_contains_of_space set hset c htl)

theorem acceptSeq_fail (set : List Char) (sets : List (List Char)) (buf : List Char) (c : Char)
    (cs : List Char) (h : set.contains c = false) :
    acceptSeq (set :: sets) (buf, c :: cs) = (false, (buf, c :: cs)) := by
  unfold acceptSeq
  rw [accept_fail _ _ _ _ h]

theorem acceptSeq_stop (set : List Char) (sets : List (List Char)) (buf tl : List Char)
    (hset : ∀ d ∈ set, isSpace d = false) (htl : endOfNumber tl = true) :
    acceptSeq (set :: sets) (buf, tl) = (false, (buf, tl)) := by
  unfold acceptSeq
  rw [accept_stop _ _ _ hset htl]

/-- The digits of a literal are read up to the first character that is not a
digit. -/
theorem acceptMany_digits (buf ds rest : List Char) (stop : Char)
    (hds : ∀ c ∈ ds, c ∈ decimalDigits) (hstop : "0123456789_".toList.contains stop = false) :
    acceptMany "0123456789_".toList (buf, ds ++ stop :: rest) = (buf ++ ds, stop :: rest) := by
  show (buf ++ List.takeWhile "0123456789_".toList.contains (ds ++ stop :: rest),
    List.dropWhile "0123456789_".toList.contains (ds ++ stop :: rest)) = _
  have hall : ∀ c ∈ ds, "0123456789_".toList.contains c = true :=
    fun c hc => (digit_facts c (hds c hc)).2.2.2.2.1
  rw [takeWhile_all _ _ _ hall, dropWhile_all _ _ _ hall, List.takeWhile_cons,
    List.dropWhile_cons, hstop]
  simp

/-- The digits of a literal are read up to the end of the number. -/
theorem acceptMany_stop (buf ds tl : List Char) (hds : ∀ c ∈ ds, c ∈ decimalDigits)
    (htl : endOfNumber tl = true) :
    acceptMany "0123456789_".toList (buf, ds ++ tl) = (buf ++ ds, tl) := by
  cases tl with
  | nil =>
    show (buf ++ List.takeWhile "0123456789_".toList.contains (ds ++ []),
      List.dropWhile "0123456789_".toList.contains (ds ++ [])) = _
    have hall : ∀ c ∈ ds, "0123456789_".toList.contains c = true :=
      fun c hc => (digit_facts c (hds c hc)).2.2.2.2.1
    rw [takeWhile_all _ _ _ hall, dropWhile_all _ _ _ hall]
    simp
  | cons c rest =>
    exact acceptMany_digits buf ds rest c hds (not_contains_of_space _ (by decide) c htl)

/-- The part of `floatToken` after the test for a hexadecimal prefix, for a
decimal literal. -/
theorem floatToken_tail (buf ds fp tl : List Char) (dot : Bool)
    (hds : ∀ c ∈ ds, c ∈ decimalDigits) (hfpd : ∀ c ∈ fp, c ∈ decimalDigits)
    (htl : endOfNumber tl = true) :
    (match accept "eEpP".toList
        (match accept ".".toList (acceptMany "0123456789_".toList
            (buf, ds ++ (if dot then '.' :: fp else []) ++ tl)) with
          | (true, st1) => acceptMany "0123456789_".toList st1
          | (false, st1) => st1) with
      | (true, st1) => acceptMany "0123456789_".toList (accept "+-".toList st1).2
      | (false, st1) => st1) =
      (buf ++ ds ++ (if dot then '.' :: fp else []), tl) := by
  cases dot with
  | false =>
    simp only [Bool.false_eq_true, if_false, List.append_nil]
    rw [acceptMany_stop _ _ _ hds htl, accept_stop _ _ _ (by decide) htl]
    simp only []
    rw [accept_stop _ _ _ (by decide) htl]
  | true =>
    simp only [if_true, List.append_assoc, List.cons_append]
    rw [acceptMany_digits _ _ _ _ hds (by decide), accept_ok _ _ _ _ (by decide)]
    simp only []
    rw [acceptMany_stop _ _ _ hfpd htl, accept_stop _ _ _ (by decide) htl]
    simp

/-- The test for a hexadecimal prefix fails on a decimal literal; it consumes a
leading zero. -/
theorem hexTest_decimal (d0 : Char) (ds fp tl : List Char) (dot : Bool)
    (hds : ∀ c ∈ ds, c ∈ decimalDigits) (htl : endOfNumber tl = true) :
    acceptSeq ["0".toList, "xX".toList]
        ([], d0 :: ((ds ++ if dot then '.' :: fp else []) ++ tl)) =
      (false, ([], d0 :: ((ds ++ if dot then '.' :: fp else []) ++ tl))) ∨
    acceptSeq ["0".toList, "xX".toList]
        ([], d0 :: ((ds ++ if dot then '.' :: fp else []) ++ tl)) =
      (false, ([d0], (ds ++ if dot then '.' :: fp else []) ++ tl)) := by
  by_cases h0 : "0".toList.contains d0 = true
  · right
    unfold acceptSeq
    rw [accept_ok _ _ _ _ h0]
    simp only [List.nil_append]
    cases ds with
    | nil =>
      cases dot
      · exact acceptSeq_stop _ _ _ _ (by decide) htl
      · exact acceptSeq_fail _ _ _ _ _ (by decide)
    | cons d1 ds' =>
      exact acceptSeq_fail _ _ _ _ _ (digit_facts d1 (hds d1 (List.mem_cons_self _ _))).2.2.2.1
  · left
    exact acceptSeq_fail _ _ _ _ _ (by simpa using h0)

/-- The token of a decimal literal followed by a space, or by nothing, is the
literal. -/
theorem floatToken_decimal (ip fp tl : List Char) (dot : Bool) (hip : ip ≠ [])
    (hipd : ∀ c ∈ ip, c ∈ decimalDigits) (hfpd : ∀ c ∈ fp, c ∈ decimalDigits)
    (htl : endOfNumber tl = true) :
    floatToken (ip ++ (if dot then '.' :: fp else []) ++ tl) =
      (ip ++ (if dot then '.' :: fp else []), tl) := by
  obtain ⟨d0, ds, rfl⟩ := List.exists_cons_of_ne_nil hip
  have hd0 := digit_facts d0 (hipd d0 (List.mem_cons_self _ _))
  have hds : ∀ c ∈ ds, c ∈ decimalDigits := fun c hc => hipd c (List.mem_cons_of_mem _ hc)
  unfold floatToken
  simp only [List.cons_append]
  rw [acceptSeq_fail _ _ _ _ _ hd0.1]
  simp only []
  rw [accept_fail _ _ _ _ hd0.2.1]
  simp only []
  rw [acceptSeq_fail _ _ _ _ _ hd0.2.2.1]
  simp only []
  rcases hexTest_decimal d0 ds fp tl dot hds htl with h | h
  · rw [h]
    simp only [Bool.false_eq_true, if_false]
    exact floatToken_tail [] (d0 :: ds) fp tl dot hipd hfpd htl
  · rw [h]
    simp only [Bool.false_eq_true, if_false]
    exact floatToken_tail [d0] ds fp tl dot hds hfpd htl

/-- A decimal literal has no binary exponent: `convertFloat` hands it to
`strconv.ParseFloat`. -/
theorem convertFloat_decimal (ip fp : List Char) (dot : Bool)
    (hipd : ∀ c ∈ ip, c ∈ decimalDigits) (hfpd : ∀ c ∈ fp, c ∈ decimalDigits) :
    convertFloat (ip ++ if dot then '.' :: fp else []) =
      parseFloat (ip ++ if dot then '.' :: fp else []) := by
  have hd : ∀ c, c ∈ decimalDigits → c ≠ 'p' := by
    intro c hc
    simp only [decimalDigits, String.toList, List.mem_cons, List.mem_singleton,
      List.not_mem_nil, or_false] at hc
    rcases hc with h | h | h | h | h | h | h | h | h | h <;> subst h <;> decide
  have hp : (ip ++ if dot then '.' :: fp else []).contains 'p' = false := by
    cases hc : (ip ++ if dot then '.' :: fp else []).contains 'p' with
    | false => rfl
    | true =>
      exfalso
      have hm : 'p' ∈ ip ++ if dot then '.' :: fp else [] := by simpa using hc
      rcases List.mem_append.mp hm with h | h
      · exact hd _ (hipd _ h) rfl
      · cases dot with
        | false => simp at h
        | true =>
          simp only [if_true, List.mem_cons] at h
          rcases h with h | h
          · exact absurd h (by decide)
          · exact hd _ (hfpd _ h) rfl
  unfold convertFloat
  rw [hp]
  rfl

theorem isSpace_upperChar (c : Char) (h : isSpace c = true) : upperChar c = c := by
  unfold upperChar
  rw [if_neg]
  intro hc
  have h1 : 97 ≤ c.toNat := by
    have := hc.1
    rw [Char.le_def] at this
    exact this
  have h2 : c.toNat ≤ 122 := by
    have := hc.2
    rw [Char.le_def] at this
    exact this
  simp only [isSpace, Bool.or_eq_true, Bool.and_eq_true, decide_eq_true_eq, beq_iff_eq] at h
  omega

/-- A name that is a unit in upper case is a word without spaces. -/
theorem unit_word (u : List Char) (k : Nat) (h : unitPower (toUpper u) = some k) :
    u ≠ [] ∧ ∀ c ∈ u, isSpace c = false := by
  have hU : toUpper u ≠ [] ∧ ∀ c ∈ toUpper u, isSpace c = false := by
    unfold unitPower at h
    split_ifs at h with h1 h2 h3 h4 h5
    · rw [h1]; decide
    · rw [h2]; decide
    · rw [h3]; decide
    · rw [h4]; decide
    · rw [h5]; decide
  constructor
  · intro hu
    rw [hu] at hU
    exact hU.1 rfl
  · intro c hc
    by_contra hs
    have hs' : isSpace c = true := by simpa using hs
    have hm : upperChar c ∈ toUpper u := List.mem_map_of_mem _ hc
    have := hU.2 _ hm
    rw [isSpace_upperChar c hs'] at this
    rw [this] at hs'
    exact Bool.noConfusion hs'

theorem skipBlanks_nonspace (c : Char) (cs : List Char) (h : isSpace c = false) :
    skipBlanks (c :: cs) = c :: cs := by
  unfold skipBlanks
  rw [List.dropWhile_cons, h]
  simp

theorem skipSpaceVerb_nonspace (c : Char) (cs : List Char) (h : isSpace c = false) :
    skipSpaceVerb (c :: cs) = some (c :: cs) := by
  unfold skipSpaceVerb
  rw [skipBlanks_nonspace c cs h]
  split
  · rename_i heq
    have : c = '\n' := (List.cons.inj heq).1
    rw [this] at h
    exact absurd h (by decide)
  · rfl

theorem scanWord_word (u : List Char) (hne : u ≠ []) (hns : ∀ c ∈ u, isSpace c = false) :
    scanWord u = some u := by
  obtain ⟨c, cs, rfl⟩ := List.exists_cons_of_ne_nil hne
  unfold scanWord
  rw [skipSpaceVerb_nonspace c cs (hns c (List.mem_cons_self _ _))]
  simp only [List.isEmpty_cons, Bool.false_eq_true, if_false]
  have := takeWhile_all (fun c => !isSpace c) (c :: cs) [] (by
    intro d hd; simp [hns d hd])
  rw [List.append_nil] at this
  rw [this]; simp

theorem matchFormatSpace_word (u : List Char) (hne : u ≠ [])
    (hns : ∀ c ∈ u, isSpace c = false) : matchFormatSpace (' ' :: u) = some u := by
  obtain ⟨c, cs, rfl⟩ := List.exists_cons_of_ne_nil hne
  have h1 : ((' ' : Char) != '\n' && isSpace ' ') = true := by decide
  show (if ((' ' : Char) != '\n' && isSpace ' ') = true then some (skipBlanks (' ' :: c :: cs))
    else none) = _
  rw [if_pos h1]
  unfold skipBlanks
  rw [List.dropWhile_cons, if_pos (by decide)]
  have := skipBlanks_nonspace c cs (hns c (List.mem_cons_self _ _))
  unfold skipBlanks at this
  rw [this]

/-- Scanning a decimal literal followed by a space, or by nothing, gives the
value of the literal. -/
theorem scanFloat_decimal (ip fp tl : List Char) (dot : Bool) (v : F64) (hip : ip ≠ [])
    (hipd : ∀ c ∈ ip, c ∈ decimalDigits) (hfpd : ∀ c ∈ fp, c ∈ decimalDigits)
    (htl : endOfNumber tl = true)
    (hv : parseFloat (ip ++ if dot then '.' :: fp else []) = some v) :
    scanFloat (ip ++ (if dot then '.' :: fp else []) ++ tl) = some (v, tl) := by
  have htok := floatToken_decimal ip fp tl dot hip hipd hfpd htl
  have hconv := convertFloat_decimal ip fp dot hipd hfpd
  obtain ⟨d0, ds, rfl⟩ := List.exists_cons_of_ne_nil hip
  have hd0 := (digit_facts d0 (hipd d0 (List.mem_cons_self _ _))).2.2.2.2.2
  unfold scanFloat
  have hskip : skipSpaceVerb (d0 :: ds ++ (if dot then '.' :: fp else []) ++ tl) =
      some (d0 :: ds ++ (if dot then '.' :: fp else []) ++ tl) :=
    skipSpaceVerb_nonspace d0 _ hd0
  rw [hskip]
  simp only [List.cons_append, List.isEmpty_cons, Bool.false_eq_true, if_false]
  simp only [List.cons_append] at htok hv hconv
  rw [htok]
  simp only [hconv, hv, Option.map_some']

/-- Scanning `<decimal literal> <unit>` stores the value of the literal and the
unit. -/
theorem sscanfFloatWord_decimal (ip fp u : List Char) (dot : Bool) (v : F64) (hip : ip ≠ [])
    (hipd : ∀ c ∈ ip, c ∈ decimalDigits) (hfpd : ∀ c ∈ fp, c ∈ decimalDigits)
    (hne : u ≠ []) (hns : ∀ c ∈ u, isSpace c = false)
    (hv : parseFloat (ip ++ if dot then '.' :: fp else []) = some v) :
    sscanfFloatWord (ip ++ (if dot then '.' :: fp else []) ++ ' ' :: u) = (some v, some u) := by
  unfold sscanfFloatWord
  rw [scanFloat_decimal ip fp (' ' :: u) dot v hip hipd hfpd
    (show endOfNumber (' ' :: u) = true by rfl) hv]
  simp only [matchFormatSpace_word u hne hns, Option.some_bind, scanWord_word u hne hns]

/-- Scanning a decimal literal alone stores its value and no unit. -/
theorem sscanfFloatWord_alone (ip fp : List Char) (dot : Bool) (v : F64) (hip : ip ≠ [])
    (hipd : ∀ c ∈ ip, c ∈ decimalDigits) (hfpd : ∀ c ∈ fp, c ∈ decimalDigits)
    (hv : parseFloat (ip ++ if dot then '.' :: fp else []) = some v) :
    sscanfFloatWord (ip ++ if dot then '.' :: fp else []) = (some v, none) := by
  have h := scanFloat_decimal ip fp [] dot v hip hipd hfpd (by rfl) hv
  rw [List.append_nil] at h
  unfold sscanfFloatWord
  rw [h]
  rfl

theorem trimSpace_word (u : List Char) (hne : u ≠ []) (hns : ∀ c ∈ u, isSpace c = false) :
    trimSpace u = u := by
  obtain ⟨c, cs, hu⟩ := List.exists_cons_of_ne_nil hne
  obtain ⟨x, xs, hr⟩ := List.exists_cons_of_ne_nil (fun h => hne (List.reverse_eq_nil_iff.mp h))
  have hx : x ∈ u := by
    rw [← List.mem_reverse, hr]; exact List.mem_cons_self _ _
  have := trimSpace_pad [] [] u c x cs (by simp) (by simp) hu (by rw [hr]; rfl)
    (hns c (by rw [hu]; exact List.mem_cons_self _ _)) (hns x hx)
  simpa using this

/-- The chain of multiplications by 1024 is the exact product. -/
theorem mul_chain (v : F64) (hv : F64.Valid v) :
    F64.mul v (F64.ofNat 1024) = F64.mulExact v (1024 ^ 1) ∧
    F64.mul (F64.mul v (F64.ofNat 1024)) (F64.ofNat 1024) = F64.mulExact v (1024 ^ 2) ∧
    F64.mul (F64.mul (F64.mul v (F64.ofNat 1024)) (F64.ofNat 1024)) (F64.ofNat 1024) =
      F64.mulExact v (1024 ^ 3) ∧
    F64.mul (F64.mul (F64.mul (F64.mul v (F64.ofNat 1024)) (F64.ofNat 1024)) (F64.ofNat 1024))
      (F64.ofNat 1024) = F64.mulExact v (1024 ^ 4) := by
  have h0 := mulExact_one v hv
  have hv0 : F64.Valid (F64.mulExact v (2 ^ 0)) := by rw [h0]; exact hv
  obtain ⟨e1, v1⟩ := mul_1024 v 0 hv0
  obtain ⟨e2, v2⟩ := mul_1024 v 10 v1
  obtain ⟨e3, v3⟩ := mul_1024 v 20 v2
  obtain ⟨e4, _⟩ := mul_1024 v 30 v3
  rw [h0] at e1
  have p1 : (1024 : Nat) ^ 1 = 2 ^ (0 + 10) := by norm_num
  have p2 : (1024 : Nat) ^ 2 = 2 ^ (10 + 10) := by norm_num
  have p3 : (1024 : Nat) ^ 3 = 2 ^ (20 + 10) := by norm_num
  have p4 : (1024 : Nat) ^ 4 = 2 ^ (30 + 10) := by norm_num
  rw [p1, p2, p3, p4, e1, e2, e3, e4]
  exact ⟨rfl, rfl, rfl, rfl⟩


theorem dropWhile_head {α : Type} (p : α → Bool) (s : List α) (c : α) (cs : List α)
    (h : s.dropWhile p = c :: cs) : p c = false := by
  induction s with
  | nil => cases h
  | cons a t ih =>
    rw [List.dropWhile_cons] at h
    by_cases ha : p a = true
    · rw [if_pos ha] at h; exact ih h
    · rw [if_neg ha] at h
      cases h
      simpa using ha

/-- A trimmed string does not start with a space. -/
theorem trimSpace_head (s : List Char) (c : Char) (cs : List Char)
    (h : trimSpace s = c :: cs) : isSpace c = false := by
  unfold trimSpace trimRight trimLeft at h
  have hsplit := List.takeWhile_append_dropWhile isSpace (s.dropWhile isSpace).reverse
  have h2 : s.dropWhile isSpace = c :: (cs ++ (List.takeWhile isSpace
      (s.dropWhile isSpace).reverse).reverse) := by
    have := congrArg List.reverse hsplit
    rw [List.reverse_append, List.reverse_reverse, h] at this
    exact this.symm
  exact dropWhile_head isSpace s c _ h2

theorem accept_app (set : List Char) (st : TokState) :
    (accept set st).2.1 ++ (accept set st).2.2 = st.1 ++ st.2 := by
  obtain ⟨buf, inp⟩ := st
  cases inp with
  | nil => rfl
  | cons c cs =>
    show (if set.contains c then ((true, (buf ++ [c], cs)) : Bool × TokState)
      else (false, (buf, c :: cs))).2.1 ++ (if set.contains c then
        ((true, (buf ++ [c], cs)) : Bool × TokState) else (false, (buf, c :: cs))).2.2 = _
    cases set.contains c <;> simp

theorem acceptSeq_app (sets : List (List Char)) (st : TokState) :
    (acceptSeq sets st).2.1 ++ (acceptSeq sets st).2.2 = st.1 ++ st.2 := by
  induction sets generalizing st with
  | nil => rfl
  | cons set sets ih =>
    unfold acceptSeq
    have h := accept_app set st
    generalize accept set st = r at h
    obtain ⟨b, st1⟩ := r
    cases b
    · exact h
    · simp only []
      rw [ih st1]; exact h

theorem acceptMany_app (set : List Char) (st : TokState) :
    (acceptMany set st).1 ++ (acceptMany set st).2 = st.1 ++ st.2 := by
  obtain ⟨buf, inp⟩ := st
  show (buf ++ inp.takeWhile set.contains) ++ inp.dropWhile set.contains = buf ++ inp
  rw [List.append_assoc, List.takeWhile_append_dropWhile]

/-- The token and the rest of the input make up the input. -/
theorem floatToken_app (inp : List Char) :
    (floatToken inp).1 ++ (floatToken inp).2 = inp := by
  unfold floatToken
  dsimp only
  have h1 := acceptSeq_app ["nN".toList, "aA".toList, "nN".toList] ([], inp)
  generalize acceptSeq ["nN".toList, "aA".toList, "nN".toList] ([], inp) = r1 at h1
  obtain ⟨b1, st1⟩ := r1
  cases b1
  · simp only []
    have h2 := accept_app "+-".toList st1
    generalize (accept "+-".toList st1).2 = st2 at h2
    have h3 := acceptSeq_app ["iI".toList, "nN".toList, "fF".toList] st2
    generalize acceptSeq ["iI".toList, "nN".toList, "fF".toList] st2 = r3 at h3
    obtain ⟨b3, st3⟩ := r3
    cases b3
    · simp only []
      have h4 := acceptSeq_app ["0".toList, "xX".toList] st3
      generalize acceptSeq ["0".toList, "xX".toList] st3 = r4 at h4
      obtain ⟨hex, st4⟩ := r4
      simp only []
      generalize (if hex = true then "0123456789aAbBcCdDeEfF_".toList else "0123456789_".toList) = digits
      generalize (if hex = true then "pP".toList else "eEpP".toList) = exp
      have h5 := acceptMany_app digits st4
      generalize acceptMany digits st4 = st5 at h5
      have hrest : ∀ st7 : TokState, st7.1 ++ st7.2 = inp →
          (match accept exp st7 with
            | (true, st1) => acceptMany "0123456789_".toList (accept "+-".toList st1).2
            | (false, st1) => st1).1 ++
          (match accept exp st7 with
            | (true, st1) => acceptMany "0123456789_".toList (accept "+-".toList st1).2
            | (false, st1) => st1).2 = inp := by
        intro st7 h7
        have h8 := accept_app exp st7
        generalize accept exp st7 = r8 at h8
        obtain ⟨b8, st8⟩ := r8
        cases b8
        · simp only []
          simp_all
        · simp only []
          rw [acceptMany_app, accept_app]
          simp_all
      have h6 := accept_app ".".toList st5
      generalize accept ".".toList st5 = r6 at h6
      obtain ⟨b6, st6⟩ := r6
      cases b6
      · simp only []
        exact hrest st6 (by simp_all)
      · simp only []
        exact hrest _ (by rw [acceptMany_app]; simp_all)
    · simp only []
      simp_all
  · simp only []
    simp_all

/-- A token none of whose leading parts is a number is not converted. -/
theorem convertFloat_none (tok : List Char)
    (h : ∀ t, t <+: tok → parseFloat t = none) : convertFloat tok = none := by
  unfold convertFloat
  split_ifs
  · rw [h _ (List.takeWhile_prefix _)]
  · exact h tok (List.prefix_refl _)

theorem startsWithNumber_false (s : List Char) (h : startsWithNumber s = false) :
    ∀ t, t <+: s → parseFloat t = none := by
  intro t ht
  unfold startsWithNumber at h
  rw [List.any_eq_false] at h
  have := h t ((List.mem_inits t s).mpr ht)
  simpa using this

/-- When no leading part of the text is a number, the verb `%f` fails. -/
theorem scanFloat_none (s : List Char) (hhead : ∀ c cs, s = c :: cs → isSpace c = false)
    (h : startsWithNumber s = false) : scanFloat s = none := by
  cases s with
  | nil => rfl
  | cons c cs =>
    unfold scanFloat
    rw [skipSpaceVerb_nonspace c cs (hhead c cs rfl)]
    simp only [List.isEmpty_cons, Bool.false_eq_true, if_false]
    have hp : (floatToken (c :: cs)).1 <+: c :: cs := ⟨_, floatToken_app _⟩
    rw [convertFloat_none _ (fun t ht => startsWithNumber_false _ h t (ht.trans hp))]
    rfl

/-! ## The fields of a line -/

/-- The sample before the loop over the parts. -/
theorem parse_eq (line : List Char) :
    parse line = (fieldsOf line).foldl parseSwitch
      { ts := parseTimestamp line, connecting := 0, connected := 0, upStr := [], downStr := [],
        upBytes := F64.zero, downBytes := F64.zero } := by
  unfold parse fieldsOf
  rw [List.foldl_map]
  rfl

theorem labelOf_none (acc : Sample) (p : List Char) (h : labelOf p = none) :
    parseSwitch acc p = acc := by
  unfold labelOf at h
  unfold parseSwitch
  split_ifs at h ⊢
  rfl

theorem parseSwitch_eq (acc : Sample) (p : List Char) :
    parseSwitch acc p =
      match labelOf p with
      | some .connecting =>
        { acc with connecting := (sscanfLabelInt "Connecting:".toList p).getD acc.connecting }
      | some .connected =>
        { acc with connected := (sscanfLabelInt "Connected:".toList p).getD acc.connected }
      | some .up =>
        { acc with upStr := trimSpace (p.drop 3),
                   upBytes := parseSizeToBytes (trimSpace (p.drop 3)) }
      | some .down =>
        { acc with downStr := trimSpace (p.drop 5),
                   downBytes := parseSizeToBytes (trimSpace (p.drop 5)) }
      | none => acc := by
  unfold labelOf parseSwitch
  split_ifs with h1 h2 h3 h4
  · rfl
  · rfl
  · simp only [trimPrefix, if_pos h3]; rfl
  · simp only [trimPrefix, if_pos h4]; rfl
  · rfl

theorem parseSwitch_comm (z : Sample) (x y : List Char) (h : labelOf x ≠ labelOf y) :
    parseSwitch (parseSwitch z x) y = parseSwitch (parseSwitch z y) x := by
  simp only [parseSwitch_eq]
  cases z
  cases hx : labelOf x with
  | none => cases hy : labelOf y with
    | none => simp only []
    | some ly => cases ly <;> simp only []
  | some lx =>
    cases hy : labelOf y with
    | none => cases lx <;> simp only []
    | some ly =>
      rw [hx, hy] at h
      cases lx <;> cases ly <;> first | exact absurd rfl h | simp only []

theorem foldl_filter_labelled (l : List (List Char)) (init : Sample) :
    l.foldl parseSwitch init = (l.filter (fun p => (labelOf p).isSome)).foldl parseSwitch init := by
  induction l generalizing init with
  | nil => rfl
  | cons p ps ih =>
    rw [List.foldl_cons, List.filter_cons]
    cases hp : labelOf p with
    | none => simp [labelOf_none _ _ hp, ih]
    | some lab => simp [ih]

theorem core_parseSwitch (a b : Sample) (p : List Char) (h : a.core = b.core) :
    (parseSwitch a p).core = (parseSwitch b p).core := by
  simp only [Sample.core, Prod.mk.injEq] at h
  obtain ⟨h1, h2, h3, h4, h5, h6⟩ := h
  simp only [parseSwitch_eq]
  cases labelOf p with
  | none => simp [Sample.core, *]
  | some lab => cases lab <;> simp [Sample.core, *]

theorem core_foldl (l : List (List Char)) (a b : Sample) (h : a.core = b.core) :
    (l.foldl parseSwitch a).core = (l.foldl parseSwitch b).core := by
  induction l generalizing a b with
  | nil => exact h
  | cons p ps ih => exact ih _ _ (core_parseSwitch a b p h)

theorem eq_of_filter_le_one {α : Type} (q : α → Bool) (l : List α) (h : (l.filter q).length ≤ 1)
    (x y : α) (hx : x ∈ l) (hy : y ∈ l) (qx : q x = true) (qy : q y = true) : x = y := by
  have mx : x ∈ l.filter q := List.mem_filter.mpr ⟨hx, qx⟩
  have my : y ∈ l.filter q := List.mem_filter.mpr ⟨hy, qy⟩
  match hl : l.filter q, h with
  | [], _ => rw [hl] at mx; simp at mx
  | [a], _ =>
    rw [hl] at mx my
    simp at mx my
    rw [mx, my]
  | _ :: _ :: _, h => simp at h

/-- Field order and fields of other labels do not matter. -/
theorem parse_core_perm (line1 line2 : List Char)
    (once : ∀ lab, labelCount lab line1 ≤ 1)
    (hperm : (labelledFields line1).Perm (labelledFields line2)) :
    (parse line1).core = (parse line2).core := by
  rw [parse_eq, parse_eq, foldl_filter_labelled (fieldsOf line1),
    foldl_filter_labelled (fieldsOf line2)]
  have hcomm : ∀ x ∈ labelledFields line1, ∀ y ∈ labelledFields line1, ∀ z : Sample,
      parseSwitch (parseSwitch z x) y = parseSwitch (parseSwitch z y) x := by
    intro x hx y hy z
    by_cases hl : labelOf x = labelOf y
    · have hx' := List.mem_filter.mp hx
      have hy' := List.mem_filter.mp hy
      obtain ⟨lab, hlab⟩ := Option.isSome_iff_exists.mp hx'.2
      have : x = y := eq_of_filter_le_one (fun p => decide (labelOf p = some lab)) (fieldsOf line1)
        (once lab) x y hx'.1 hy'.1 (by simp [hlab]) (by simp [← hl, hlab])
      rw [this]
    · exact parseSwitch_comm z x y hl
  have := List.Perm.foldl_eq' hperm hcomm
    { ts := parseTimestamp line1, connecting := 0, connected := 0, upStr := [], downStr := [],
      upBytes := F64.zero, downBytes := F64.zero }
  unfold labelledFields at this
  rw [this]
  exact core_foldl _ _ _ rfl

/-- Parts of other labels keep what a projection `π` of the sample reads. -/
theorem foldl_keep {β : Type} (π : Sample → β) (lab : Label)
    (hπ : ∀ acc p, labelOf p ≠ some lab → π (parseSwitch acc p) = π acc)
    (l : List (List Char)) (hl : ∀ p ∈ l, labelOf p ≠ some lab) (init : Sample) :
    π (l.foldl parseSwitch init) = π init := by
  induction l generalizing init with
  | nil => rfl
  | cons p ps ih =>
    rw [List.foldl_cons, ih (fun q hq => hl q (List.mem_cons_of_mem _ hq)),
      hπ _ _ (hl p (List.mem_cons_self _ _))]

/-- The only part with a label decides what the projection `π` reads. -/
theorem foldl_once {β : Type} (π : Sample → β) (lab : Label) (g : List Char → β → β)
    (hπ : ∀ acc p, labelOf p ≠ some lab → π (parseSwitch acc p) = π acc)
    (hg : ∀ acc p, labelOf p = some lab → π (parseSwitch acc p) = g p (π acc))
    (l : List (List Char)) (p : List Char) (hp : p ∈ l) (hlab : labelOf p = some lab)
    (hc : (l.filter (fun q => labelOf q = some lab)).length ≤ 1) (init : Sample) :
    π (l.foldl parseSwitch init) = g p (π init) := by
  obtain ⟨s, t, rfl⟩ := List.append_of_mem hp
  have hs : ∀ q ∈ s, labelOf q ≠ some lab := by
    intro q hq hql
    have : q ∈ s.filter (fun q => labelOf q = some lab) :=
      List.mem_filter.mpr ⟨hq, by simp [hql]⟩
    have h1 := List.length_pos_of_mem this
    simp [List.filter_append, List.filter_cons, hlab] at hc
    omega
  have ht : ∀ q ∈ t, labelOf q ≠ some lab := by
    intro q hq hql
    have : q ∈ t.filter (fun q => labelOf q = some lab) :=
      List.mem_filter.mpr ⟨hq, by simp [hql]⟩
    have h1 := List.length_pos_of_mem this
    simp [List.filter_append, List.filter_cons, hlab] at hc
    omega
  rw [List.foldl_append, List.foldl_cons, foldl_keep π lab hπ t ht, hg _ _ hlab,
    foldl_keep π lab hπ s hs]

theorem keep_connecting (acc : Sample) (p : List Char) (h : labelOf p ≠ some .connecting) :
    (parseSwitch acc p).connecting = acc.connecting := by
  rw [parseSwitch_eq]
  cases hl : labelOf p with
  | none => rfl
  | some lab => cases lab <;> first | exact absurd hl h | rfl

theorem keep_connected (acc : Sample) (p : List Char) (h : labelOf p ≠ some .connected) :
    (parseSwitch acc p).connected = acc.connected := by
  rw [parseSwitch_eq]
  cases hl : labelOf p with
  | none => rfl
  | some lab => cases lab <;> first | exact absurd hl h | rfl

theorem keep_up (acc : Sample) (p : List Char) (h : labelOf p ≠ some .up) :
    ((parseSwitch acc p).upStr, (parseSwitch acc p).upBytes) = (acc.upStr, acc.upBytes) := by
  rw [parseSwitch_eq]
  cases hl : labelOf p with
  | none => rfl
  | some lab => cases lab <;> first | exact absurd hl h | rfl

theorem keep_down (acc : Sample) (p : List Char) (h : labelOf p ≠ some .down) :
    ((parseSwitch acc p).downStr, (parseSwitch acc p).downBytes) =
      (acc.downStr, acc.downBytes) := by
  rw [parseSwitch_eq]
  cases hl : labelOf p with
  | none => rfl
  | some lab => cases lab <;> first | exact absurd hl h | rfl

theorem set_connecting (acc : Sample) (p : List Char) (h : labelOf p = some .connecting) :
    (parseSwitch acc p).connecting =
      (sscanfLabelInt "Connecting:".toList p).getD acc.connecting := by
  rw [parseSwitch_eq, h]

theorem set_connected (acc : Sample) (p : List Char) (h : labelOf p = some .connected) :
    (parseSwitch acc p).connected =
      (sscanfLabelInt "Connected:".toList p).getD acc.connected := by
  rw [parseSwitch_eq, h]

theorem set_up (acc : Sample) (p : List Char) (h : labelOf p = some .up) :
    ((parseSwitch acc p).upStr, (parseSwitch acc p).upBytes) =
      (trimSpace (p.drop 3), parseSizeToBytes (trimSpace (p.drop 3))) := by
  rw [parseSwitch_eq, h]

theorem set_down (acc : Sample) (p : List Char) (h : labelOf p = some .down) :
    ((parseSwitch acc p).downStr, (parseSwitch acc p).downBytes) =
      (trimSpace (p.drop 5), parseSizeToBytes (trimSpace (p.drop 5))) := by
  rw [parseSwitch_eq, h]

theorem not_label_of_count_zero (lab : Label) (line : List Char) (h : labelCount lab line = 0) :
    ∀ p ∈ fieldsOf line, labelOf p ≠ some lab := by
  intro p hp hl
  unfold labelCount at h
  have : p ∈ (fieldsOf line).filter (fun p => labelOf p = some lab) :=
    List.mem_filter.mpr ⟨hp, by simp [hl]⟩
  have := List.length_pos_of_mem this
  omega

/-- A label that no field carries leaves its attributes at their defaults. -/
theorem parse_absent (line : List Char) :
    (labelCount .connecting line = 0 → (parse line).connecting = 0) ∧
    (labelCount .connected line = 0 → (parse line).connected = 0) ∧
    (labelCount .up line = 0 → (parse line).upStr = [] ∧ (parse line).upBytes = F64.zero) ∧
    (labelCount .down line = 0 →
      (parse line).downStr = [] ∧ (parse line).downBytes = F64.zero) := by
  rw [parse_eq]
  refine ⟨fun h => ?_, fun h => ?_, fun h => ?_, fun h => ?_⟩
  · exact foldl_keep (fun s => s.connecting) _ keep_connecting _
      (not_label_of_count_zero _ _ h) _
  · exact foldl_keep (fun s => s.connected) _ keep_connected _
      (not_label_of_count_zero _ _ h) _
  · have := foldl_keep (fun s => (s.upStr, s.upBytes)) _ keep_up _
      (not_label_of_count_zero _ _ h)
      { ts := parseTimestamp line, connecting := 0, connected := 0, upStr := [], downStr := [],
        upBytes := F64.zero, downBytes := F64.zero }
    simpa [Prod.ext_iff] using this
  · have := foldl_keep (fun s => (s.downStr, s.downBytes)) _ keep_down _
      (not_label_of_count_zero _ _ h)
      { ts := parseTimestamp line, connecting := 0, connected := 0, upStr := [], downStr := [],
        upBytes := F64.zero, downBytes := F64.zero }
    simpa [Prod.ext_iff] using this

/-- The only field with a label sets the attributes of the label. -/
theorem parse_present (line p : List Char) (hp : p ∈ fieldsOf line) :
    (labelOf p = some .connecting → labelCount .connecting line ≤ 1 →
      (parse line).connecting = (sscanfLabelInt "Connecting:".toList p).getD 0) ∧
    (labelOf p = some .connected → labelCount .connected line ≤ 1 →
      (parse line).connected = (sscanfLabelInt "Connected:".toList p).getD 0) ∧
    (labelOf p = some .up → labelCount .up line ≤ 1 →
      (parse line).upStr = trimSpace (p.drop 3) ∧
        (parse line).upBytes = parseSizeToBytes (trimSpace (p.drop 3))) ∧
    (labelOf p = some .down → labelCount .down line ≤ 1 →
      (parse line).downStr = trimSpace (p.drop 5) ∧
        (parse line).downBytes = parseSizeToBytes (trimSpace (p.drop 5))) := by
  rw [parse_eq]
  refine ⟨fun hl hc => ?_, fun hl hc => ?_, fun hl hc => ?_, fun hl hc => ?_⟩
  · exact foldl_once (fun s => s.connecting) _
      (fun p c => (sscanfLabelInt "Connecting:".toList p).getD c)
      keep_connecting set_connecting _ p hp hl hc _
  · exact foldl_once (fun s => s.connected) _
      (fun p c => (sscanfLabelInt "Connected:".toList p).getD c)
      keep_connected set_connected _ p hp hl hc _
  · have := foldl_once (fun s => (s.upStr, s.upBytes)) _
      (fun p _ => (trimSpace (p.drop 3), parseSizeToBytes (trimSpace (p.drop 3))))
      keep_up set_up _ p hp hl hc
      { ts := parseTimestamp line, connecting := 0, connected := 0, upStr := [], downStr := [],
        upBytes := F64.zero, downBytes := F64.zero }
    simpa [Prod.ext_iff] using this
  · have := foldl_once (fun s => (s.downStr, s.downBytes)) _
      (fun p _ => (trimSpace (p.drop 5), parseSizeToBytes (trimSpace (p.drop 5))))
      keep_down set_down _ p hp hl hc
      { ts := parseTimestamp line, connecting := 0, connected := 0, upStr := [], downStr := [],
        upBytes := F64.zero, downBytes := F64.zero }
    simpa [Prod.ext_iff] using this

/-- The total strings are text of the line, never a number printed again. -/
theorem foldl_totals_verbatim (l : List (List Char)) (init : Sample) :
    ((l.foldl parseSwitch init).upStr = init.upStr ∨
      ∃ p ∈ l, labelOf p = some .up ∧ (l.foldl parseSwitch init).upStr = trimSpace (p.drop 3)) ∧
    ((l.foldl parseSwitch init).downStr = init.downStr ∨
      ∃ p ∈ l, labelOf p = some .down ∧
        (l.foldl parseSwitch init).downStr = trimSpace (p.drop 5)) := by
  induction l generalizing init with
  | nil => exact ⟨Or.inl rfl, Or.inl rfl⟩
  | cons q qs ih =>
    rw [List.foldl_cons]
    obtain ⟨hu, hd⟩ := ih (parseSwitch init q)
    constructor
    · rcases hu with h | ⟨p, hp, hl, h⟩
      · by_cases hq : labelOf q = some .up
        · right
          refine ⟨q, List.mem_cons_self _ _, hq, ?_⟩
          rw [h]; exact congrArg Prod.fst (set_up init q hq)
        · left
          rw [h]; exact congrArg Prod.fst (keep_up init q hq)
      · exact Or.inr ⟨p, List.mem_cons_of_mem _ hp, hl, h⟩
    · rcases hd with h | ⟨p, hp, hl, h⟩
      · by_cases hq : labelOf q = some .down
        · right
          refine ⟨q, List.mem_cons_self _ _, hq, ?_⟩
          rw [h]; exact congrArg Prod.fst (set_down init q hq)
        · left
          rw [h]; exact congrArg Prod.fst (keep_down init q hq)
      · exact Or.inr ⟨p, List.mem_cons_of_mem _ hp, hl, h⟩

/-! ## Counter resets -/

/-- After a counter reset the difference of the totals is below zero. -/
theorem sub_neg_of_lt (a b : F64) (h : F64.lt a b = true) :
    F64.sub a b = .inf true ∨ ∃ n, n ≠ 0 ∧ F64.sub a b = .fin true n := by
  cases a with
  | nan => simp [F64.lt] at h
  | inf x =>
    cases b with
    | nan => simp [F64.lt] at h
    | inf y =>
      simp only [F64.lt, Bool.and_eq_true, Bool.not_eq_true'] at h
      obtain ⟨rfl, rfl⟩ := h
      left; rfl
    | fin y m =>
      simp only [F64.lt] at h
      subst h
      left; rfl
  | fin x n =>
    cases b with
    | nan => simp [F64.lt] at h
    | inf y =>
      simp only [F64.lt, Bool.not_eq_true'] at h
      subst h
      left; rfl
    | fin y m =>
      simp only [F64.lt, decide_eq_true_eq] at h
      have hs : F64.units x n + F64.units (!y) m < 0 := by
        cases y <;> simp [F64.units] at h ⊢ <;> omega
      have hne : F64.units x n + F64.units (!y) m ≠ 0 := by omega
      have hd : decide (F64.units x n + F64.units (!y) m < 0) = true := by simpa using hs
      have hsub : F64.sub (.fin x n) (.fin y m) =
          F64.round true (F64.units x n + F64.units (!y) m).natAbs 1 := by
        show (if F64.units x n + F64.units (!y) m = 0 then _ else _) = _
        rw [if_neg hne, hd]
      rw [hsub]
      have h1 : 2 ^ 0 ≤ roundUnits (F64.units x n + F64.units (!y) m).natAbs 1 :=
        le_roundUnits _ _ 0 (by norm_num) (by
          have : 0 < (F64.units x n + F64.units (!y) m).natAbs := Int.natAbs_pos.mpr hne
          rw [pow_zero, Nat.mul_one]
          exact this)
      unfold F64.round
      dsimp only
      by_cases ho : overflow64 ≤ roundUnits (F64.units x n + F64.units (!y) m).natAbs 1
      · rw [if_pos ho]; left; rfl
      · rw [if_neg ho]; right
        exact ⟨_, by simp at h1; omega, rfl⟩

/-- The divisor of the rate is a finite positive number. -/
theorem elapsed_fin (ts1 ts2 : Time) : ∃ m, m ≠ 0 ∧ elapsed ts1 ts2 = .fin false m := by
  have hpos := elapsed_pos ts1 ts2
  unfold elapsed at hpos ⊢
  dsimp only at hpos ⊢
  obtain ⟨s, n, h⟩ := durationSeconds_fin (timeSub ts2 ts1) (timeSub_range _ _)
  rw [h] at hpos ⊢
  by_cases hle : F64.le (.fin s n) F64.zero = true
  · rw [if_pos hle, ofNat_one]
    exact ⟨one64, Nat.ne_of_gt one64_pos, rfl⟩
  · rw [if_neg hle] at hpos ⊢
    cases s
    · refine ⟨n, ?_, rfl⟩
      intro h0
      subst h0
      simp [F64.lt, F64.zero, F64.units] at hpos
    · simp [F64.lt, F64.zero, F64.units] at hpos
      omega

/-- After a counter reset the displayed rate is zero, with a minus sign when
the quotient underflows to negative zero. -/
theorem reset_rate_display (a b : F64) (ts1 ts2 : Time) (h : F64.lt a b = true) :
    formatBytesPerSec (F64.div (F64.sub a b) (elapsed ts1 ts2)) = "0 B/s".toList ∨
      (F64.div (F64.sub a b) (elapsed ts1 ts2) = .fin true 0 ∧
        formatBytesPerSec (F64.div (F64.sub a b) (elapsed ts1 ts2)) = "-0 B/s".toList) := by
  obtain ⟨m, hm, he⟩ := elapsed_fin ts1 ts2
  rw [he]
  rcases sub_neg_of_lt a b h with hs | ⟨n, hn, hs⟩
  · rw [hs]
    left
    exact formatBytesPerSec_neg _ rfl
  · rw [hs]
    have hdiv : F64.div (.fin true n) (.fin false m) = F64.round true (n * one64) m := by
      show (if m = 0 then _ else _) = _
      rw [if_neg hm]; rfl
    rw [hdiv]
    unfold F64.round
    dsimp only
    by_cases ho : overflow64 ≤ roundUnits (n * one64) m
    · rw [if_pos ho]
      left
      exact formatBytesPerSec_neg _ rfl
    · rw [if_neg ho]
      by_cases hz : roundUnits (n * one64) m = 0
      · right
        rw [hz]
        exact ⟨rfl, by decide!⟩
      · left
        apply formatBytesPerSec_neg
        simp only [F64.lt, F64.zero, F64.units, decide_eq_true_eq]
        simp
        omega

/-! ## The claims -/

/-- C1 (evaluation at the failing input). For a batch whose two marker lines
show a counter reset, the claim wants `UpBps` and `DownBps` to be exactly
`0 B/s`.  On `resetBatch` the newer upload total is smaller than the older one,
yet the quotient `(0 - 5e-324) / 30` underflows to negative zero, which the test
`bps < 0` of `formatBytesPerSec` does not catch: both rates are shown as
`-0 B/s`. -/
theorem reset_rate_negative_zero :
    (resetBatch.filter isStatsLine).length = 2 ∧
      F64.lt (parse resetNewer).upBytes (parse resetOlder).upBytes = true ∧
      F64.lt (parse resetNewer).downBytes (parse resetOlder).downBytes = true ∧
      (statsFromLines resetBatch).UpBps = "-0 B/s".toList ∧
      (statsFromLines resetBatch).DownBps = "-0 B/s".toList ∧
      (statsFromLines resetBatch).UpBps ≠ "0 B/s".toList := by decide!

/-- C2 (as stated, refuted). On `unstampedBatch` the older marker line has no
timestamp, so its timestamp is the zero time, and the newer timestamp minus the
older one is 63905434419 seconds, strictly positive: the formula of the claim
gives `2 B/s` for the upload of 100 GB.  The program shows `12 B/s`: the
difference does not fit a `time.Duration` and is limited to the largest one,
about 9223372036.85 seconds.  On `resetBatch` the quotient is negative zero:
`max(0, -0)` is `0` and the formula gives `0 B/s`, the program shows
`-0 B/s`. -/
theorem rate_formula_unbounded_dt :
    unstampedBatch.filter isStatsLine = [unstampedOlder, stampedNewer] ∧
      (parse unstampedOlder).ts = zeroTime ∧
      (parse unstampedOlder).ts < (parse stampedNewer).ts ∧
      claimDt (parse unstampedOlder).ts (parse stampedNewer).ts = F64.ofNat 63905434419 ∧
      formatBytesPerSec (max0 (F64.div
        (F64.sub (parse stampedNewer).upBytes (parse unstampedOlder).upBytes)
        (claimDt (parse unstampedOlder).ts (parse stampedNewer).ts))) = "2 B/s".toList ∧
      (statsFromLines unstampedBatch).UpBps = "12 B/s".toList ∧
      (statsFromLines unstampedBatch).UpBps ≠ formatBytesPerSec (max0 (F64.div
        (F64.sub (parse stampedNewer).upBytes (parse unstampedOlder).upBytes)
        (claimDt (parse unstampedOlder).ts (parse stampedNewer).ts))) ∧
      resetBatch.filter isStatsLine = [resetOlder, resetNewer] ∧
      formatBytesPerSec (max0 (F64.div
        (F64.sub (parse resetNewer).upBytes (parse resetOlder).upBytes)
        (claimDt (parse resetOlder).ts (parse resetNewer).ts))) = "0 B/s".toList ∧
      (statsFromLines resetBatch).UpBps ≠ formatBytesPerSec (max0 (F64.div
        (F64.sub (parse resetNewer).upBytes (parse resetOlder).upBytes)
        (claimDt (parse resetOlder).ts (parse resetNewer).ts))) := by decide!

/-- C2 (amended). For every batch whose last two marker lines are `l1` (older)
and `l2` (newer), let `dt` be the newer timestamp minus the older one, limited
to the largest `time.Duration`, in seconds, when the newer timestamp is the
later one, and `1` otherwise.  Whenever the quotient
`(newer.upBytes - older.upBytes) / dt` is not negative zero, `UpBps` is
`formatBytesPerSec (max (0, quotient))`; the same holds for `DownBps`; the
divisor `dt` is strictly positive, so never zero, negative or NaN; and when the
difference of the timestamps fits a `time.Duration`, `dt` is the `dt` of the
specification. -/
theorem rate_formula (lines pre : List (List Char)) (l1 l2 : List Char)
    (h : lines.filter isStatsLine = pre ++ [l1, l2]) :
    (F64.div (F64.sub (parse l2).upBytes (parse l1).upBytes)
          (boundedDt (parse l1).ts (parse l2).ts) ≠ .fin true 0 →
        (statsFromLines lines).UpBps =
          formatBytesPerSec (max0 (F64.div (F64.sub (parse l2).upBytes (parse l1).upBytes)
            (boundedDt (parse l1).ts (parse l2).ts)))) ∧
      (F64.div (F64.sub (parse l2).downBytes (parse l1).downBytes)
          (boundedDt (parse l1).ts (parse l2).ts) ≠ .fin true 0 →
        (statsFromLines lines).DownBps =
          formatBytesPerSec (max0 (F64.div (F64.sub (parse l2).downBytes (parse l1).downBytes)
            (boundedDt (parse l1).ts (parse l2).ts)))) ∧
      F64.lt F64.zero (boundedDt (parse l1).ts (parse l2).ts) = true ∧
      (((parse l2).ts : Int) - ((parse l1).ts : Int) ≤ maxDuration →
        boundedDt (parse l1).ts (parse l2).ts = claimDt (parse l1).ts (parse l2).ts) := by
  have hs : selectStatsLines lines = [l1, l2] := by
    rw [selectStatsLines_eq, h]
    simp
  have hup : (statsFromLines lines).UpBps =
      formatBytesPerSec (F64.div (F64.sub (parse l2).upBytes (parse l1).upBytes)
        (elapsed (parse l1).ts (parse l2).ts)) := by
    simp [statsFromLines, hs]
  have hdown : (statsFromLines lines).DownBps =
      formatBytesPerSec (F64.div (F64.sub (parse l2).downBytes (parse l1).downBytes)
        (elapsed (parse l1).ts (parse l2).ts)) := by
    simp [statsFromLines, hs]
  have hpos := elapsed_pos (parse l1).ts (parse l2).ts
  rw [elapsed_eq_boundedDt] at hup hdown hpos
  refine ⟨fun hne => ?_, fun hne => ?_, hpos, boundedDt_eq_claimDt _ _⟩
  · rw [formatBytesPerSec_max0 _ hne]; exact hup
  · rw [formatBytesPerSec_max0 _ hne]; exact hdown

/-- Witness of the amended C2 on the example batch of the specification: the
samples are 30 seconds apart and the upload rate is `1.67 MB/s`. -/
theorem rate_formula_witness :
    exampleBatch.filter isStatsLine = [] ++ [exampleOlder, exampleNewer] ∧
      boundedDt (parse exampleOlder).ts (parse exampleNewer).ts = F64.ofNat 30 ∧
      claimDt (parse exampleOlder).ts (parse exampleNewer).ts = F64.ofNat 30 ∧
      formatBytesPerSec (max0 (F64.div
          (F64.sub (parse exampleNewer).upBytes (parse exampleOlder).upBytes)
          (boundedDt (parse exampleOlder).ts (parse exampleNewer).ts))) = "1.67 MB/s".toList ∧
      (statsFromLines exampleBatch).UpBps =
        formatBytesPerSec (max0 (F64.div
          (F64.sub (parse exampleNewer).upBytes (parse exampleOlder).upBytes)
          (boundedDt (parse exampleOlder).ts (parse exampleNewer).ts))) ∧
      F64.lt F64.zero (boundedDt (parse exampleOlder).ts (parse exampleNewer).ts) = true :=
  ⟨by decide!, by decide!, by decide!, by decide!,
    (rate_formula exampleBatch [] exampleOlder exampleNewer (by decide!)).1 (by decide!),
    (rate_formula exampleBatch [] exampleOlder exampleNewer (by decide!)).2.2.1⟩

/-- C3. For every batch, `UpBps` and `DownBps` are both the sentinel `-` if and
only if fewer than two lines contain the marker; with two or more marker lines
neither rate is `-`. -/
theorem rates_dash_iff (lines : List (List Char)) :
    (((statsFromLines lines).UpBps = "-".toList ∧ (statsFromLines lines).DownBps = "-".toList) ↔
        (lines.filter isStatsLine).length < 2) ∧
      (2 ≤ (lines.filter isStatsLine).length →
        (statsFromLines lines).UpBps ≠ "-".toList ∧
          (statsFromLines lines).DownBps ≠ "-".toList) := by
  rcases selectStatsLines_cases lines with ⟨hf, hs⟩ | ⟨l, hf, hs⟩ | ⟨pre, l1, l2, hf, hs⟩
  · simp [statsFromLines, hs, hf]
  · simp [statsFromLines, hs, hf]
  · have hlen : ¬ (lines.filter isStatsLine).length < 2 := by simp [hf]
    have hu := formatBytesPerSec_ne_dash
    simp only [statsFromLines, hs, hlen, iff_false, not_and]
    exact ⟨fun h => absurd h (hu _), fun _ => ⟨hu _, hu _⟩⟩

/-- Witness of C3 on the example batch: two marker lines, no rate is `-`. -/
theorem rates_dash_iff_witness :
    2 ≤ (exampleBatch.filter isStatsLine).length ∧
      (statsFromLines exampleBatch).UpBps ≠ "-".toList ∧
      (statsFromLines exampleBatch).DownBps ≠ "-".toList :=
  ⟨by decide!, (rates_dash_iff exampleBatch).2 (by decide!)⟩

/-- C4 (as stated, refuted). In the string `5 XB` the number `5` is followed
by the unit `XB`, which is none of `B`, `KB`, `MB`, `GB`, `TB`, and
`parseSizeToBytes` returns `5`, not `0`. -/
theorem parseSizeToBytes_unknown_unit_nonzero :
    unitPower (toUpper "XB".toList) = none ∧
      parseSizeToBytes "5 XB".toList = F64.ofNat 5 ∧
      parseSizeToBytes "5 XB".toList ≠ F64.zero := by decide!

/-- C4 (amended). For every decimal literal (digits `ip`, optionally a point
and digits `fp`) that denotes the `float64` `v`, followed by a space and a word
`u` that is none of `B`, `KB`, `MB`, `GB`, `TB` in any mix of cases, with any
white space around, `parseSizeToBytes` returns `v`, the number unscaled; for
the literal alone, with any white space around, it returns `v` as well; and for
every string that, trimmed, has no leading part that is a number, it returns
`0`. -/
theorem parseSizeToBytes_unknown_unit :
    (∀ (ip fp u ws1 ws2 : List Char) (dot : Bool) (v : F64), ip ≠ [] →
        (∀ c ∈ ip, c ∈ decimalDigits) → (∀ c ∈ fp, c ∈ decimalDigits) →
        u ≠ [] → (∀ c ∈ u, isSpace c = false) → unitPower (toUpper u) = none →
        (∀ c ∈ ws1, isSpace c = true) → (∀ c ∈ ws2, isSpace c = true) →
        parseFloat (ip ++ if dot then '.' :: fp else []) = some v →
        parseSizeToBytes (ws1 ++ ((ip ++ if dot then '.' :: fp else []) ++ ' ' :: u) ++ ws2)
          = v) ∧
      (∀ (ip fp ws1 ws2 : List Char) (dot : Bool) (v : F64), ip ≠ [] →
        (∀ c ∈ ip, c ∈ decimalDigits) → (∀ c ∈ fp, c ∈ decimalDigits) →
        (∀ c ∈ ws1, isSpace c = true) → (∀ c ∈ ws2, isSpace c = true) →
        parseFloat (ip ++ if dot then '.' :: fp else []) = some v →
        parseSizeToBytes (ws1 ++ (ip ++ if dot then '.' :: fp else []) ++ ws2) = v) ∧
      (∀ s : List Char, startsWithNumber (trimSpace s) = false →
        parseSizeToBytes s = F64.zero) := by
  have hlast : ∀ (fp : List Char) (dot : Bool), (∀ c ∈ fp, c ∈ decimalDigits) →
      ∀ (ip : List Char), (∀ c ∈ ip, c ∈ decimalDigits) → ip ≠ [] →
      ∃ x xs, (ip ++ if dot then '.' :: fp else []).reverse = x :: xs ∧ isSpace x = false := by
    intro fp dot hfpd ip hipd hip
    obtain ⟨x, xs, hr⟩ := List.exists_cons_of_ne_nil
      (fun h => hip (List.append_eq_nil.mp (List.reverse_eq_nil_iff.mp h)).1)
    refine ⟨x, xs, hr, ?_⟩
    have hx : x ∈ ip ++ if dot then '.' :: fp else [] := by
      rw [← List.mem_reverse, hr]; exact List.mem_cons_self _ _
    rcases List.mem_append.mp hx with hm | hm
    · exact (digit_facts x (hipd x hm)).2.2.2.2.2
    · cases dot with
      | false => simp at hm
      | true =>
        simp only [if_true, List.mem_cons] at hm
        rcases hm with hm | hm
        · rw [hm]; decide
        · exact (digit_facts x (hfpd x hm)).2.2.2.2.2
  refine ⟨?_, ?_, ?_⟩
  · intro ip fp u ws1 ws2 dot v hip hipd hfpd hne hns hu h1 h2 hv
    have hscan := sscanfFloatWord_decimal ip fp u dot v hip hipd hfpd hne hns hv
    obtain ⟨d0, ds, hipe⟩ := List.exists_cons_of_ne_nil hip
    obtain ⟨x, xs, hr⟩ := List.exists_cons_of_ne_nil
      (fun h => hne (List.reverse_eq_nil_iff.mp h))
    have hx : x ∈ u := by
      rw [← List.mem_reverse, hr]; exact List.mem_cons_self _ _
    have htrim : trimSpace (ws1 ++ ((ip ++ if dot then '.' :: fp else []) ++ ' ' :: u) ++ ws2) =
        (ip ++ if dot then '.' :: fp else []) ++ ' ' :: u := by
      apply trimSpace_pad ws1 ws2 _ d0 x (ds ++ (if dot then '.' :: fp else []) ++ ' ' :: u)
        h1 h2
      · rw [hipe]; simp
      · simp [hr]
      · exact (digit_facts d0 (hipd d0 (by rw [hipe]; exact List.mem_cons_self _ _))).2.2.2.2.2
      · exact hns x hx
    unfold unitPower at hu
    split_ifs at hu with hB hK hM hG hT
    unfold parseSizeToBytes
    simp only [htrim, hscan, Option.getD_some, trimSpace_word u hne hns]
    rw [if_neg hB, if_neg hK, if_neg hM, if_neg hG, if_neg hT]
  · intro ip fp ws1 ws2 dot v hip hipd hfpd h1 h2 hv
    have hscan := sscanfFloatWord_alone ip fp dot v hip hipd hfpd hv
    obtain ⟨d0, ds, hipe⟩ := List.exists_cons_of_ne_nil hip
    obtain ⟨x, xs, hr, hxs⟩ := hlast fp dot hfpd ip hipd hip
    have htrim : trimSpace (ws1 ++ (ip ++ if dot then '.' :: fp else []) ++ ws2) =
        ip ++ if dot then '.' :: fp else [] := by
      apply trimSpace_pad ws1 ws2 _ d0 x (ds ++ (if dot then '.' :: fp else [])) h1 h2
      · rw [hipe]; simp
      · simp [hr]
      · exact (digit_facts d0 (hipd d0 (by rw [hipe]; exact List.mem_cons_self _ _))).2.2.2.2.2
      · exact hxs
    unfold parseSizeToBytes
    simp only [htrim, hscan, Option.getD_some, Option.getD_none]
    rfl
  · intro s hs
    have hscan : scanFloat (trimSpace s) = none :=
      scanFloat_none _ (fun c cs h => trimSpace_head s c cs h) hs
    unfold parseSizeToBytes sscanfFloatWord
    simp only [hscan, Option.getD_none]
    rfl

/-- Witness of the amended C4: `12.5 widgets` is 12.5, the number `7` alone is
7, and `lots MB`, which does not start with a number, is 0. -/
theorem parseSizeToBytes_unknown_unit_witness :
    parseSizeToBytes " 12.5 widgets ".toList = F64.div (F64.ofNat 25) (F64.ofNat 2) ∧
      parseSizeToBytes "\t7 ".toList = F64.ofNat 7 ∧
      startsWithNumber (trimSpace " lots MB".toList) = false ∧
      parseSizeToBytes " lots MB".toList = F64.zero :=
  ⟨parseSizeToBytes_unknown_unit.1 "12".toList "5".toList "widgets".toList " ".toList
      " ".toList true (F64.div (F64.ofNat 25) (F64.ofNat 2)) (by decide) (by decide) (by decide)
      (by decide) (by decide) (by decide) (by decide) (by decide) (by decide!),
    parseSizeToBytes_unknown_unit.2.1 "7".toList [] "\t".toList " ".toList false (F64.ofNat 7)
      (by decide) (by decide) (by decide) (by decide) (by decide) (by decide!),
    by decide!, parseSizeToBytes_unknown_unit.2.2 " lots MB".toList (by decide!)⟩

/-- C5. For every decimal literal (digits `ip`, optionally a point and digits
`fp`) that denotes the `float64` `v`, and every unit name `u` that is `B`, `KB`,
`MB`, `GB` or `TB` in any mix of cases, standing for the power `k` of 1024,
`parseSizeToBytes` of `<literal> <u>`, with any white space around it, is the
exact product `v * 1024^k` (an infinity when it reaches `2^1024`); in particular
`1.0 GB` gives `1024 * 1024 * 1024`. -/
theorem parseSizeToBytes_binary_units (ip fp u ws1 ws2 : List Char) (dot : Bool) (k : Nat)
    (v : F64) (hip : ip ≠ []) (hipd : ∀ c ∈ ip, c ∈ decimalDigits)
    (hfpd : ∀ c ∈ fp, c ∈ decimalDigits) (hu : unitPower (toUpper u) = some k)
    (h1 : ∀ c ∈ ws1, isSpace c = true) (h2 : ∀ c ∈ ws2, isSpace c = true)
    (hv : parseFloat (ip ++ if dot then '.' :: fp else []) = some v) :
    parseSizeToBytes (ws1 ++ ((ip ++ if dot then '.' :: fp else []) ++ ' ' :: u) ++ ws2) =
        F64.mulExact v (1024 ^ k) ∧
      parseSizeToBytes "1.0 GB".toList = F64.ofNat (1024 * 1024 * 1024) := by
  refine ⟨?_, by decide!⟩
  obtain ⟨hne, hns⟩ := unit_word u k hu
  have hvalid := parseFloat_valid _ _ hv
  have hscan := sscanfFloatWord_decimal ip fp u dot v hip hipd hfpd hne hns hv
  obtain ⟨d0, ds, hipe⟩ := List.exists_cons_of_ne_nil hip
  obtain ⟨x, xs, hr⟩ := List.exists_cons_of_ne_nil (fun h => hne (List.reverse_eq_nil_iff.mp h))
  have hx : x ∈ u := by
    rw [← List.mem_reverse, hr]; exact List.mem_cons_self _ _
  have htrim : trimSpace (ws1 ++ ((ip ++ if dot then '.' :: fp else []) ++ ' ' :: u) ++ ws2) =
      (ip ++ if dot then '.' :: fp else []) ++ ' ' :: u := by
    apply trimSpace_pad ws1 ws2 _ d0 x (ds ++ (if dot then '.' :: fp else []) ++ ' ' :: u) h1 h2
    · rw [hipe]; simp
    · simp [hr]
    · exact (digit_facts d0 (hipd d0 (by rw [hipe]; exact List.mem_cons_self _ _))).2.2.2.2.2
    · exact hns x hx
  unfold parseSizeToBytes
  simp only [htrim, hscan, Option.getD_some, trimSpace_word u hne hns]
  obtain ⟨c1, c2, c3, c4⟩ := mul_chain v hvalid
  unfold unitPower at hu
  split_ifs at hu with hB hK hM hG hT
  · cases Option.some.inj hu
    have := mulExact_one v hvalid
    rw [if_pos hB]
    simpa using this.symm
  · cases Option.some.inj hu
    rw [if_neg hB, if_pos hK, c1]
  · cases Option.some.inj hu
    rw [if_neg hB, if_neg hK, if_pos hM, c2]
  · cases Option.some.inj hu
    rw [if_neg hB, if_neg hK, if_neg hM, if_pos hG, c3]
  · cases Option.some.inj hu
    rw [if_neg hB, if_neg hK, if_neg hM, if_neg hG, if_pos hT, c4]

/-- Witness of C5: `1.0 gB` with white space around it is `1 * 1024^3`. -/
theorem parseSizeToBytes_binary_units_witness :
    parseSizeToBytes " 1.0 gB  ".toList = F64.mulExact (F64.ofNat 1) (1024 ^ 3) :=
  (parseSizeToBytes_binary_units "1".toList "0".toList "gB".toList " ".toList "  ".toList true 3
    (F64.ofNat 1) (by decide) (by decide) (by decide) (by decide) (by decide) (by decide)
    (by decide!)).1

/-- C6. For every rate `bps`, `formatBytesPerSec` clamps a negative `bps` to
zero (the result is then `0 B/s`) and picks the unit by the thresholds: `GB/s`
with the verb `%.2f` when the clamped rate is at least `1024^3`, otherwise
`MB/s` with `%.2f` when at least `1024^2`, otherwise `KB/s` with `%.1f` when at
least `1024`, otherwise `B/s` with `%.0f`; in the three larger units the number
shown is at least `1`; the result ends in `/s`; a finite number is printed with
exactly as many decimals as the verb says; and `1024`, `1024^2`, `1024^3` are
shown as `1.0 KB/s`, `1.00 MB/s`, `1.00 GB/s`. -/
theorem formatBytesPerSec_units (bps : F64) :
    (F64.lt bps F64.zero = true → formatBytesPerSec bps = "0 B/s".toList) ∧
    (F64.ge (clampRate bps) (F64.ofNat (1024 ^ 3)) = true →
      formatBytesPerSec bps =
          fmtFixed 2 (F64.div (clampRate bps) (F64.ofNat (1024 ^ 3))) ++ " GB/s".toList ∧
        F64.ge (F64.div (clampRate bps) (F64.ofNat (1024 ^ 3))) (F64.ofNat 1) = true) ∧
    (F64.ge (clampRate bps) (F64.ofNat (1024 ^ 3)) = false →
      F64.ge (clampRate bps) (F64.ofNat (1024 ^ 2)) = true →
      formatBytesPerSec bps =
          fmtFixed 2 (F64.div (clampRate bps) (F64.ofNat (1024 ^ 2))) ++ " MB/s".toList ∧
        F64.ge (F64.div (clampRate bps) (F64.ofNat (1024 ^ 2))) (F64.ofNat 1) = true) ∧
    (F64.ge (clampRate bps) (F64.ofNat (1024 ^ 2)) = false →
      F64.ge (clampRate bps) (F64.ofNat 1024) = true →
      formatBytesPerSec bps =
          fmtFixed 1 (F64.div (clampRate bps) (F64.ofNat 1024)) ++ " KB/s".toList ∧
        F64.ge (F64.div (clampRate bps) (F64.ofNat 1024)) (F64.ofNat 1) = true) ∧
    (F64.ge (clampRate bps) (F64.ofNat 1024) = false →
      formatBytesPerSec bps = fmtFixed 0 (clampRate bps) ++ " B/s".toList) ∧
    (∃ pre, formatBytesPerSec bps = pre ++ "/s".toList) ∧
    (∀ (prec : Nat) (s : Bool) (n : Nat), ∃ ip fp, fmtFixed prec (.fin s n) = ip ++ fp ∧
      '.' ∉ ip ∧ (prec = 0 → fp = []) ∧ (0 < prec → ∃ ds, fp = '.' :: ds ∧ ds.length = prec)) ∧
    formatBytesPerSec (F64.ofNat 1024) = "1.0 KB/s".toList ∧
    formatBytesPerSec (F64.ofNat (1024 ^ 2)) = "1.00 MB/s".toList ∧
    formatBytesPerSec (F64.ofNat (1024 ^ 3)) = "1.00 GB/s".toList := by
  have e3 : (1024 : Nat) ^ 3 = GB := by decide
  have e2 : (1024 : Nat) ^ 2 = MB := by decide
  have e1 : (1024 : Nat) = KB := by decide
  rw [e3, e2, e1]
  have mono1 : F64.ge (clampRate bps) (F64.ofNat MB) = false →
      F64.ge (clampRate bps) (F64.ofNat GB) = false := by
    intro h
    by_contra hc
    rw [Bool.not_eq_false, ofNat_GB] at hc
    rw [ofNat_MB, ge_const_mono _ GB MB (by decide) hc] at h
    exact Bool.noConfusion h
  have mono2 : F64.ge (clampRate bps) (F64.ofNat KB) = false →
      F64.ge (clampRate bps) (F64.ofNat MB) = false := by
    intro h
    by_contra hc
    rw [Bool.not_eq_false, ofNat_MB] at hc
    rw [ofNat_KB, ge_const_mono _ MB KB (by decide) hc] at h
    exact Bool.noConfusion h
  refine ⟨formatBytesPerSec_neg bps, ?_, ?_, ?_, ?_, formatBytesPerSec_suffix bps,
    fmtFixed_decimals, ?_, ?_, ?_⟩
  · intro h
    refine ⟨by rw [formatBytesPerSec_eq, if_pos h], ?_⟩
    rw [ofNat_GB, ofNat_one] at *
    exact div_ge_one _ GB (by decide) h
  · intro h3 h
    refine ⟨by rw [formatBytesPerSec_eq, if_neg (by simp [h3]), if_pos h], ?_⟩
    rw [ofNat_MB, ofNat_one] at *
    exact div_ge_one _ MB (by decide) h
  · intro h2 h
    refine ⟨by rw [formatBytesPerSec_eq, if_neg (by simp [mono1 h2]), if_neg (by simp [h2]),
      if_pos h], ?_⟩
    rw [ofNat_KB, ofNat_one] at *
    exact div_ge_one _ KB (by decide) h
  · intro h
    rw [formatBytesPerSec_eq, if_neg (by simp [mono1 (mono2 h)]), if_neg (by simp [mono2 h]),
      if_neg (by simp [h])]
  · decide!
  · decide!
  · decide!

/-- Witness of C6: a negative rate, and a rate of 1536 bytes per second. -/
theorem formatBytesPerSec_units_witness :
    formatBytesPerSec (F64.ofInt (-5)) = "0 B/s".toList ∧
      formatBytesPerSec (F64.ofNat 1536) =
          fmtFixed 1 (F64.div (clampRate (F64.ofNat 1536)) (F64.ofNat 1024)) ++ " KB/s".toList ∧
      formatBytesPerSec (F64.ofNat 1536) = "1.5 KB/s".toList :=
  ⟨(formatBytesPerSec_units (F64.ofInt (-5))).1 (by decide!),
    ((formatBytesPerSec_units (F64.ofNat 1536)).2.2.2.1 (by decide!) (by decide!)).1,
    by decide!⟩

/-- C7. For every batch with at least one marker line, `Connecting`,
`Connected`, `UpTotal` and `DownTotal` of the snapshot are the values that
`parse` reads from the last marker line `l` of the batch; `UpTotal` and
`DownTotal` are text of that line (what follows the label of an `Up:` or
`Down:` field, trimmed), or empty when the line has no such field, never a
number printed again; and the example batch gives `Connecting = 4`,
`Connected = 19`, `UpTotal = 950.0 MB`, `DownTotal = 8.7 GB`, with the rates
`1.67 MB/s` and `23.89 MB/s`. -/
theorem newest_sample_fields (lines : List (List Char)) (l : List Char)
    (h : (lines.filter isStatsLine).getLast? = some l) :
    (statsFromLines lines).Connecting = (parse l).connecting ∧
      (statsFromLines lines).Connected = (parse l).connected ∧
      (statsFromLines lines).UpTotal = (parse l).upStr ∧
      (statsFromLines lines).DownTotal = (parse l).downStr ∧
      ((statsFromLines lines).UpTotal = [] ∨ ∃ p ∈ fieldsOf l, labelOf p = some .up ∧
        (statsFromLines lines).UpTotal = trimSpace (p.drop 3)) ∧
      ((statsFromLines lines).DownTotal = [] ∨ ∃ p ∈ fieldsOf l, labelOf p = some .down ∧
        (statsFromLines lines).DownTotal = trimSpace (p.drop 5)) ∧
      statsFromLines exampleBatch =
        { Connecting := 4, Connected := 19, UpTotal := "950.0 MB".toList,
          DownTotal := "8.7 GB".toList, UpBps := "1.67 MB/s".toList,
          DownBps := "23.89 MB/s".toList } := by
  have hfields : (statsFromLines lines).Connecting = (parse l).connecting ∧
      (statsFromLines lines).Connected = (parse l).connected ∧
      (statsFromLines lines).UpTotal = (parse l).upStr ∧
      (statsFromLines lines).DownTotal = (parse l).downStr := by
    rcases selectStatsLines_cases lines with ⟨hf, hs⟩ | ⟨l0, hf, hs⟩ | ⟨pre, l1, l2, hf, hs⟩
    · simp [hf] at h
    · simp [hf] at h
      subst h
      simp [statsFromLines, hs]
    · rw [hf] at h
      simp [List.getLast?_append] at h
      subst h
      simp [statsFromLines, hs]
  obtain ⟨hc1, hc2, hu, hd⟩ := hfields
  have hv := foldl_totals_verbatim (fieldsOf l)
    { ts := parseTimestamp l, connecting := 0, connected := 0, upStr := [], downStr := [],
      upBytes := F64.zero, downBytes := F64.zero }
  rw [← parse_eq] at hv
  refine ⟨hc1, hc2, hu, hd, ?_, ?_, by decide!⟩
  · rw [hu]; exact hv.1
  · rw [hd]; exact hv.2

/-- Witness of C7 on a batch with an older marker line, a line without the
marker and the newest marker line. -/
theorem newest_sample_fields_witness :
    ([exampleOlder, "-- Reboot --".toList, exampleNewer].filter isStatsLine).getLast? =
        some exampleNewer ∧
      (statsFromLines [exampleOlder, "-- Reboot --".toList, exampleNewer]).Connecting =
        (parse exampleNewer).connecting ∧
      (statsFromLines [exampleOlder, "-- Reboot --".toList, exampleNewer]).UpTotal =
        (parse exampleNewer).upStr :=
  ⟨by decide!,
    (newest_sample_fields [exampleOlder, "-- Reboot --".toList, exampleNewer] exampleNewer
      (by decide!)).1,
    (newest_sample_fields [exampleOlder, "-- Reboot --".toList, exampleNewer] exampleNewer
      (by decide!)).2.2.1⟩

/-- C8. For every batch, the selection returns exactly the last `min 2 k`
lines that contain the marker (`k` the number of such lines), in their original
order, and the snapshot of the batch is the snapshot of those lines alone: lines
without the marker and earlier marker lines have no influence. -/
theorem selectStatsLines_last_two (lines : List (List Char)) :
    selectStatsLines lines =
        (lines.filter isStatsLine).drop ((lines.filter isStatsLine).length - 2) ∧
      (selectStatsLines lines).length = min 2 (lines.filter isStatsLine).length ∧
      statsFromLines lines =
        statsFromLines
          ((lines.filter isStatsLine).drop ((lines.filter isStatsLine).length - 2)) :=
  ⟨selectStatsLines_eq lines, selectStatsLines_length lines, by
    rw [← selectStatsLines_eq, statsFromLines_select]⟩

/-- C9. For every batch in which no line contains the marker, the snapshot has
zero counts and `-` in the four display fields; so have the empty batch and the
single empty line that an empty journal output splits into. -/
theorem statsFromLines_no_marker :
    (∀ lines : List (List Char), (∀ l ∈ lines, contains l marker = false) →
        statsFromLines lines = noStats) ∧
      statsFromLines [] = noStats ∧ statsFromLines [[]] = noStats ∧
      readConduitStatsFromJournal [] = noStats := by
  have key : ∀ lines : List (List Char), (∀ l ∈ lines, contains l marker = false) →
      statsFromLines lines = noStats := by
    intro lines h
    have hf : lines.filter isStatsLine = [] := by
      rw [List.filter_eq_nil_iff]
      intro a ha
      simp [isStatsLine, h a ha]
    unfold statsFromLines
    rw [selectStatsLines_eq, hf]
    rfl
  refine ⟨key, key _ (by simp), by decide!, by decide!⟩

/-- Witness of C9: a batch of two lines without the marker. -/
theorem statsFromLines_no_marker_witness :
    (∀ l ∈ ["-- No entries --".toList, "Started conduit".toList], contains l marker = false) ∧
      statsFromLines ["-- No entries --".toList, "Started conduit".toList] = noStats :=
  ⟨by decide!, statsFromLines_no_marker.1 _ (by decide!)⟩

/-- C10 (as stated, refuted). The line `malformedLine` has one `Up:` field
whose value `xyz` is not a size (no number can be scanned from it), and the
upload total string of the parsed sample is `xyz`, not the empty string. -/
theorem malformed_up_kept :
    labelCount .up malformedLine = 1 ∧ (sscanfFloatWord "xyz".toList).1 = none ∧
      (parse malformedLine).upStr = "xyz".toList ∧ (parse malformedLine).upStr ≠ [] ∧
      (parse malformedLine).upBytes = F64.zero := by decide!

/-- C10 (amended). For every two marker lines whose labelled fields
(`Connecting:`, `Connected:`, `Up:`, `Down:`) are the same up to order, each
label occurring at most once, the parsed samples agree in counts, total strings
and byte totals, whatever fields of other labels the lines have (`Uptime: 3h`
does not set the upload total); a label that no field carries leaves its
attributes at the defaults `0`, empty string and `0` bytes; the only
`Connecting:` or `Connected:` field sets the count to the scanned integer, `0`
when none can be scanned; the only `Up:` or `Down:` field sets the total string
to its trimmed text, a size or not, and the byte total to `parseSizeToBytes` of
that text. -/
theorem parse_fields_order_free :
    (∀ line1 line2 : List Char, (∀ lab, labelCount lab line1 ≤ 1) →
      (labelledFields line1).Perm (labelledFields line2) →
      (parse line1).core = (parse line2).core) ∧
    (∀ line : List Char,
      (labelCount .connecting line = 0 → (parse line).connecting = 0) ∧
      (labelCount .connected line = 0 → (parse line).connected = 0) ∧
      (labelCount .up line = 0 → (parse line).upStr = [] ∧ (parse line).upBytes = F64.zero) ∧
      (labelCount .down line = 0 →
        (parse line).downStr = [] ∧ (parse line).downBytes = F64.zero)) ∧
    (∀ line p : List Char, p ∈ fieldsOf line →
      (labelOf p = some .connecting → labelCount .connecting line ≤ 1 →
        (parse line).connecting = (sscanfLabelInt "Connecting:".toList p).getD 0) ∧
      (labelOf p = some .connected → labelCount .connected line ≤ 1 →
        (parse line).connected = (sscanfLabelInt "Connected:".toList p).getD 0) ∧
      (labelOf p = some .up → labelCount .up line ≤ 1 →
        (parse line).upStr = trimSpace (p.drop 3) ∧
          (parse line).upBytes = parseSizeToBytes (trimSpace (p.drop 3))) ∧
      (labelOf p = some .down → labelCount .down line ≤ 1 →
        (parse line).downStr = trimSpace (p.drop 5) ∧
          (parse line).downBytes = parseSizeToBytes (trimSpace (p.drop 5)))) ∧
    labelOf "Uptime: 3h".toList = none :=
  ⟨parse_core_perm, parse_absent, parse_present, by decide⟩

/-- Witness of the amended C10: the newer example line and the same fields in
reverse order without `Uptime`. -/
theorem parse_fields_order_free_witness :
    (∀ lab, labelCount lab exampleNewer ≤ 1) ∧
      (labelledFields exampleNewer).Perm (labelledFields exampleShuffled) ∧
      (parse exampleNewer).core = (parse exampleShuffled).core ∧
      labelCount .up exampleOlder ≤ 1 ∧
      (parse exampleOlder).upStr = trimSpace ("Up: 900.0 MB".toList.drop 3) :=
  ⟨fun lab => by cases lab <;> decide!, by decide!,
    parse_fields_order_free.1 exampleNewer exampleShuffled
      (fun lab => by cases lab <;> decide!) (by decide!),
    by decide!,
    ((parse_fields_order_free.2.2.1 exampleOlder "Up: 900.0 MB".toList (by decide!)).2.2.1
      (by decide!) (by decide!)).1⟩

end Khaju
